import Mathlib

/-
Verification of the myrient-search archive indexing engine.

This file gives a shallow embedding, in Lean 4, of the parts of the
repository that the checked claims are about:

  * `src/indexer/parser.py`   — path normalization, date normalization and
    metadata extraction (`_normalize_path`, `normalize_myrient_date`,
    `extract_collection`, `extract_platform`, `extract_region`,
    `extract_file_type`, `build_entry`);
  * `src/indexer/database.py` — the content fingerprint
    (`Database.compute_content_hash`, including a faithful executable
    SHA-256), the entries/FTS schema with its triggers and the
    `INSERT OR REPLACE` upsert, the search-query sanitizer and the
    filter conditions of `Database.search`;
  * `src/indexer/crawler.py`  — `MyrientCrawler._crawl_directory` and
    `_flush_buffer`, modelled as a sequential state/trace semantics.

Python strings are modelled as Lean `String`s (most primitives are
re-implemented over `List Char` to mirror CPython semantics exactly);
Python `None`-able values are `Option`s; the SQLite store is an explicit
state record, and the SQLite FTS5 engine of `Database.search` (MATCH and
ORDER BY evaluation) is passed in as a parameter.  Whitespace and case
predicates are modelled for the ASCII range, which covers every character
class the source manipulates.
-/


/-! ### Python string primitives (over `List Char`) -/

/-- The character set of Python `str.strip()` / `str.split()` / `\s`
(ASCII range): space, tab, newline, carriage return, vertical tab, form
feed. -/

def pyIsSpace (c : Char) : Bool :=
  c = ' ' || c = '\t' || c = '\n' || c = '\r' || c = Char.ofNat 11 || c = Char.ofNat 12

/-- Python `s.strip(chars)`: drop characters satisfying `p` from both ends. -/

def pyStripWith (p : Char → Bool) (l : List Char) : List Char :=
  ((l.dropWhile p).reverse.dropWhile p).reverse

/-- Python `s.strip()` (whitespace both ends). -/

def pyStrip (s : String) : String := ⟨pyStripWith pyIsSpace s.data⟩

/-- Python `s.lstrip(c)` for a single character. -/

def pyLstripChar (c : Char) (l : List Char) : List Char := l.dropWhile (· = c)

/-- Python `s.rstrip(c)` for a single character. -/

def pyRstripChar (c : Char) (l : List Char) : List Char :=
  (l.reverse.dropWhile (· = c)).reverse

/-- Python `s.split(sep)` for a one-character separator: keeps empty
segments, and `"".split(sep) == [""]`. -/

def pySplitOn (sep : Char) : List Char → List (List Char)
  | [] => [[]]
  | c :: cs =>
    if c = sep then [] :: pySplitOn sep cs
    else match pySplitOn sep cs with
      | [] => [[c]]
      | seg :: rest => (c :: seg) :: rest

/-- Python `sep.join(parts)` (over char lists): the parts with `sep`
interleaved between consecutive parts. -/

def joinWith (sep : List Char) : List (List Char) → List Char
  | [] => []
  | [x] => x
  | x :: y :: rest => x ++ sep ++ joinWith sep (y :: rest)

/-- Python `sub in s` (substring test). -/

def listContainsSub (sub : List Char) : List Char → Bool
  | [] => sub.isEmpty
  | c :: cs => sub.isPrefixOf (c :: cs) || listContainsSub sub cs

/-- Python `sub in s` on strings. -/

def strContainsSub (sub s : String) : Bool := listContainsSub sub.data s.data

/-- Python `s.startswith(p)` on strings. -/

def strStartsWith (p s : String) : Bool := p.data.isPrefixOf s.data

/-! ### `parser._normalize_path` (src/indexer/parser.py, lines 240-253) -/

/-- A path segment survives the cleanup of `_normalize_path` iff it is
nonempty and not the single dot (`[p for p in parts if p and p != "."]`). -/

def keepSeg (seg : List Char) : Bool := !seg.isEmpty && seg ≠ ['.']

/-- `parser._normalize_path` on char lists: split on `"/"`, drop empty and
`"."` segments, rejoin, and restore a trailing slash when the input ended
with one and the result is nonempty. -/

def normalizePathL (l : List Char) : List Char :=
  let parts := pySplitOn '/' l
  let cleaned := parts.filter keepSeg
  let result := joinWith ['/'] cleaned
  if l.getLast? = some '/' && !result.isEmpty then result ++ ['/'] else result

/-- `parser._normalize_path` on strings. -/

def normalize_path (s : String) : String := ⟨normalizePathL s.data⟩

/-! ### `parser.normalize_myrient_date` (src/indexer/parser.py, lines 202-237) -/

/-- Digit list to number (most significant first). -/

def digitsToNat (l : List Char) : Nat :=
  l.foldl (fun n c => n * 10 + (c.toNat - 48)) 0

def digitChar (n : Nat) : Char := Char.ofNat (48 + n)

/-- Two-digit zero-padded decimal (for values below 100). -/

def pad2 (n : Nat) : List Char := [digitChar (n / 10 % 10), digitChar (n % 10)]

/-- Four-digit zero-padded decimal (for values below 10000). -/

def pad4 (n : Nat) : List Char :=
  [digitChar (n / 1000 % 10), digitChar (n / 100 % 10),
   digitChar (n / 10 % 10), digitChar (n % 10)]

/-- Month number from a three-letter abbreviation, compared
case-insensitively, as the `%b` directive of `datetime.strptime` does. -/

def monthOfAbbr (l : List Char) : Option Nat :=
  match (l.map Char.toLower).asString with
  | "jan" => some 1 | "feb" => some 2 | "mar" => some 3 | "apr" => some 4
  | "may" => some 5 | "jun" => some 6 | "jul" => some 7 | "aug" => some 8
  | "sep" => some 9 | "oct" => some 10 | "nov" => some 11 | "dec" => some 12
  | _ => none

/-- Gregorian month lengths, as validated by `datetime`. -/

def daysInMonth (m y : Nat) : Nat :=
  if m = 2 then
    if y % 4 = 0 && (y % 100 ≠ 0 || y % 400 = 0) then 29 else 28
  else if m = 4 || m = 6 || m = 9 || m = 11 then 30
  else 31

/-- The regex `^(\d{4}-\d{2}-\d{2})\s+(\d{2}:\d{2})$` of format 1
(`"2024-01-15 10:30"`); on a match, returns the two captured groups.
No calendar validation is performed for this format (none is in the
source either). -/

def matchDateFmt1 (l : List Char) : Option (List Char × List Char) :=
  match l with
  | y1 :: y2 :: y3 :: y4 :: s1 :: m1 :: m2 :: s2 :: d1 :: d2 :: rest =>
    if [y1, y2, y3, y4, m1, m2, d1, d2].all Char.isDigit &&
       s1 = '-' && s2 = '-' then
      let ws := rest.takeWhile pyIsSpace
      let rest2 := rest.dropWhile pyIsSpace
      if ws.isEmpty then none else
      match rest2 with
      | [h1, h2, c1, n1, n2] =>
        if [h1, h2, n1, n2].all Char.isDigit && c1 = ':' then
          some ([y1, y2, y3, y4, s1, m1, m2, s2, d1, d2], [h1, h2, c1, n1, n2])
        else none
      | _ => none
    else none
  | _ => none

/-- The regex `^(\d{1,2})-([A-Za-z]{3})-(\d{4})\s+(\d{2}:\d{2})$` of
format 2 (`"18-Feb-2025 10:57"`), followed by
`datetime.strptime(raw, "%d-%b-%Y %H:%M")` validation (month abbreviation,
day-of-month against the Gregorian calendar, `datetime.MINYEAR = 1`,
hour below 24, minute below 60) and `dt.strftime("%Y-%m-%dT%H:%M:00")`
formatting.  Returns `none` when the regex does not match or strptime
raises `ValueError` (both fall through in the source). -/

def matchDateFmt2 (l : List Char) : Option String :=
  let ds := l.takeWhile Char.isDigit
  let rest := l.dropWhile Char.isDigit
  if ds.length = 0 || 2 < ds.length then none else
  match rest with
  | s1 :: a1 :: a2 :: a3 :: s2 :: y1 :: y2 :: y3 :: y4 :: rest2 =>
    if s1 = '-' && s2 = '-' && [a1, a2, a3].all Char.isAlpha &&
       [y1, y2, y3, y4].all Char.isDigit then
      let ws := rest2.takeWhile pyIsSpace
      let rest3 := rest2.dropWhile pyIsSpace
      if ws.isEmpty then none else
      match rest3 with
      | [h1, h2, c1, n1, n2] =>
        if [h1, h2, n1, n2].all Char.isDigit && c1 = ':' then
          match monthOfAbbr [a1, a2, a3] with
          | none => none
          | some mon =>
            let day := digitsToNat ds
            let year := digitsToNat [y1, y2, y3, y4]
            let hour := digitsToNat [h1, h2]
            let minute := digitsToNat [n1, n2]
            if 1 ≤ day && day ≤ daysInMonth mon year && 1 ≤ year &&
               hour ≤ 23 && minute ≤ 59 then
              some ⟨pad4 year ++ '-' :: pad2 mon ++ '-' :: pad2 day ++
                    'T' :: pad2 hour ++ ':' :: pad2 minute ++ [':', '0', '0']⟩
            else none
        else none
      | _ => none
    else none
  | _ => none

/-- `parser.normalize_myrient_date`: `None`/blank to `None`; strip; pass
through anything containing `"T"`; convert the two known formats; return
the (stripped) input unchanged otherwise. -/

def normalize_myrient_date (raw : Option String) : Option String :=
  match raw with
  | none => none
  | some s =>
    if (pyStrip s).data.isEmpty then none
    else
      let r := pyStrip s
      if 'T' ∈ r.data then some r
      else match matchDateFmt1 r.data with
        | some (datePart, timePart) =>
          some ⟨datePart ++ 'T' :: timePart ++ [':', '0', '0']⟩
        | none =>
          match matchDateFmt2 r.data with
          | some out => some out
          | none => some r

/-- The exact ISO-8601 shape `YYYY-MM-DDTHH:MM:SS` that the spec's
"already in that form" refers to. -/

def isIsoT (s : String) : Bool :=
  s.data.length = 19 && (List.range 19).all (fun i =>
    let c := s.data.getD i ' '
    if i = 4 || i = 7 then c = '-'
    else if i = 10 then c = 'T'
    else if i = 13 || i = 16 then c = ':'
    else c.isDigit)

/-! ### `Database.compute_content_hash` (src/indexer/database.py, lines 165-179)

The source computes `hashlib.sha256(repr(sorted(triples)).encode("utf-8"))
.hexdigest()` over the `(name, size or "", date or "")` triples of the raw
listing rows.  SHA-256, Python `repr` of a list of string 3-tuples, UTF-8
encoding and the tuple sort order are all embedded executably below. -/

/-- A raw listing row as produced by `parse_directory_listing`
(src/indexer/parser.py): decoded name, link target, display size and date
(absent when empty/`-`), directory flag. -/

structure RawEntry where
  name : String
  href : String
  size : Option String
  date : Option String
  is_directory : Bool
deriving DecidableEq

/-- The `(e.get("name", ""), e.get("size") or "", e.get("date") or "")`
triple of a row.  (`x or ""` sends both `None` and `""` to `""`, which is
what `Option.getD ""` computes on `Option String`.) -/

def rawTriple (e : RawEntry) : String × String × String :=
  (e.name, e.size.getD "", e.date.getD "")

/-- CPython string comparison: lexicographic on code points. -/

def cmpChars : List Char → List Char → Ordering
  | [], [] => .eq
  | [], _ :: _ => .lt
  | _ :: _, [] => .gt
  | a :: as, b :: bs =>
    if a.toNat < b.toNat then .lt
    else if b.toNat < a.toNat then .gt
    else cmpChars as bs

/-- CPython string comparison on `String`. -/

def cmpStr (s t : String) : Ordering := cmpChars s.data t.data

/-- Lexicographic combination of two comparators, as CPython compares
tuples componentwise. -/

def cmpLex {α β : Type} (ca : α → α → Ordering) (cb : β → β → Ordering)
    (x y : α × β) : Ordering :=
  match ca x.1 y.1 with
  | .lt => .lt
  | .gt => .gt
  | .eq => cb x.2 y.2

/-- The three linear-comparator laws needed for sort-order reasoning. -/

structure IsCmp {α : Type} (c : α → α → Ordering) : Prop where
  swap_eq : ∀ a b, (c a b).swap = c b a
  eq_iff : ∀ a b, c a b = .eq ↔ a = b
  lt_trans : ∀ {a b d}, c a b = .lt → c b d = .lt → c a d = .lt

/-- CPython 3-tuple comparison: lexicographic on components. -/

def cmpTriple : (String × String × String) → (String × String × String) → Ordering :=
  cmpLex cmpStr (cmpLex cmpStr cmpStr)

/-- The (non-strict) order used by Python `sorted` on the triples. -/

def tripleLe (x y : String × String × String) : Prop := cmpTriple x y ≠ .gt

instance : DecidableRel tripleLe := fun x y =>
  inferInstanceAs (Decidable (cmpTriple x y ≠ .gt))

/-- Python `sorted` on the triples: the unique `tripleLe`-sorted
permutation (ties are fully equal triples, so any stable sort agrees). -/

def pySortTriples (ts : List (String × String × String)) :
    List (String × String × String) :=
  List.insertionSort tripleLe ts

/-- Lower-case hex digit. -/

def hexDigitChar (n : Nat) : Char :=
  if n < 10 then Char.ofNat (48 + n) else Char.ofNat (87 + n)

/-- Python `repr` of a `str` (for the character ranges appearing in
directory listings): quotes with a single quote, or with a double quote
when the string contains a single quote but no double quote; escapes the
backslash, the quote character, and ASCII
control characters. -/

def pyReprStr (s : String) : String :=
  let sq : Char := Char.ofNat 39   -- single quote
  let dq : Char := Char.ofNat 34   -- double quote
  let bs : Char := Char.ofNat 92   -- backslash
  let q : Char := if s.data.contains sq && !s.data.contains dq then dq else sq
  let esc : Char → List Char := fun c =>
    if c = bs then [bs, bs]
    else if c = q then [bs, q]
    else if c = '\n' then [bs, 'n']
    else if c = '\r' then [bs, 'r']
    else if c = '\t' then [bs, 't']
    else if c.toNat < 32 || c.toNat = 127 then
      [bs, 'x', hexDigitChar (c.toNat / 16), hexDigitChar (c.toNat % 16)]
    else [c]
  ⟨q :: (s.data.map esc).flatten ++ [q]⟩

/-- Python `repr` of a 3-tuple of strings. -/

def pyReprTriple (t : String × String × String) : String :=
  "(" ++ pyReprStr t.1 ++ ", " ++ pyReprStr t.2.1 ++ ", " ++ pyReprStr t.2.2 ++ ")"

/-- Python `repr` of a list of 3-tuples of strings. -/

def pyReprTripleList (ts : List (String × String × String)) : String :=
  "[" ++ String.intercalate ", " (ts.map pyReprTriple) ++ "]"

/-- UTF-8 encoding of one character. -/

def utf8EncodeChar (c : Char) : List Nat :=
  let n := c.toNat
  if n < 128 then [n]
  else if n < 2048 then [192 ||| (n >>> 6), 128 ||| (n &&& 63)]
  else if n < 65536 then
    [224 ||| (n >>> 12), 128 ||| ((n >>> 6) &&& 63), 128 ||| (n &&& 63)]
  else
    [240 ||| (n >>> 18), 128 ||| ((n >>> 12) &&& 63),
     128 ||| ((n >>> 6) &&& 63), 128 ||| (n &&& 63)]

/-- Python `s.encode("utf-8")` as a byte list. -/

def utf8Encode (l : List Char) : List Nat := (l.map utf8EncodeChar).flatten

/-! ### Executable SHA-256 (FIPS 180-4), used by `compute_content_hash` -/

def W32 : Nat := 4294967296

def rotr32 (n x : Nat) : Nat := ((x >>> n) ||| (x <<< (32 - n))) % W32

def ssig0 (x : Nat) : Nat := rotr32 7 x ^^^ rotr32 18 x ^^^ (x >>> 3)

def ssig1 (x : Nat) : Nat := rotr32 17 x ^^^ rotr32 19 x ^^^ (x >>> 10)

def bsig0 (x : Nat) : Nat := rotr32 2 x ^^^ rotr32 13 x ^^^ rotr32 22 x

def bsig1 (x : Nat) : Nat := rotr32 6 x ^^^ rotr32 11 x ^^^ rotr32 25 x

def chFn (e f g : Nat) : Nat := (e &&& f) ^^^ ((e ^^^ (W32 - 1)) &&& g)

def majFn (a b c : Nat) : Nat := (a &&& b) ^^^ (a &&& c) ^^^ (b &&& c)

def sha256K : List Nat :=
  [1116352408, 1899447441, 3049323471, 3921009573,
   961987163, 1508970993, 2453635748, 2870763221,
   3624381080, 310598401, 607225278, 1426881987,
   1925078388, 2162078206, 2614888103, 3248222580,
   3835390401, 4022224774, 264347078, 604807628,
   770255983, 1249150122, 1555081692, 1996064986,
   2554220882, 2821834349, 2952996808, 3210313671,
   3336571891, 3584528711, 113926993, 338241895,
   666307205, 773529912, 1294757372, 1396182291,
   1695183700, 1986661051, 2177026350, 2456956037,
   2730485921, 2820302411, 3259730800, 3345764771,
   3516065817, 3600352804, 4094571909, 275423344,
   430227734, 506948616, 659060556, 883997877,
   958139571, 1322822218, 1537002063, 1747873779,
   1955562222, 2024104815, 2227730452, 2361852424,
   2428436474, 2756734187, 3204031479, 3329325298]

structure Sha8 where
  a : Nat
  b : Nat
  c : Nat
  d : Nat
  e : Nat
  f : Nat
  g : Nat
  h : Nat

def sha256H0 : Sha8 :=
  ⟨1779033703, 3144134277, 1013904242, 2773480762,
   1359893119, 2600822924, 528734635, 1541459225⟩

/-- Append the `0x80` marker, zero padding to 56 mod 64, and the 64-bit
big-endian bit length. -/

def padMessage (msg : List Nat) : List Nat :=
  let L := msg.length
  let zeros := (119 - L % 64) % 64
  msg ++ 0x80 :: List.replicate zeros 0 ++
    [((L * 8) >>> 56) % 256, ((L * 8) >>> 48) % 256,
     ((L * 8) >>> 40) % 256, ((L * 8) >>> 32) % 256,
     ((L * 8) >>> 24) % 256, ((L * 8) >>> 16) % 256,
     ((L * 8) >>> 8) % 256, (L * 8) % 256]

def bytesToWords : List Nat → List Nat
  | b0 :: b1 :: b2 :: b3 :: rest =>
    (((b0 * 256 + b1) * 256 + b2) * 256 + b3) :: bytesToWords rest
  | _ => []

/-- Extend the 16 block words with `n` more schedule words. -/

def extendWords : Nat → List Nat → List Nat
  | 0, w => w
  | n + 1, w =>
    let i := w.length
    let nw := (w.getD (i - 16) 0 + ssig0 (w.getD (i - 15) 0) +
               w.getD (i - 7) 0 + ssig1 (w.getD (i - 2) 0)) % W32
    extendWords n (w ++ [nw])

def compressStep (st : Sha8) (kw : Nat × Nat) : Sha8 :=
  let t1 := (st.h + bsig1 st.e + chFn st.e st.f st.g + kw.1 + kw.2) % W32
  let t2 := (bsig0 st.a + majFn st.a st.b st.c) % W32
  ⟨(t1 + t2) % W32, st.a, st.b, st.c, (st.d + t1) % W32, st.e, st.f, st.g⟩

def processBlock (st : Sha8) (block : List Nat) : Sha8 :=
  let ws := extendWords 48 (bytesToWords block)
  let t := (sha256K.zip ws).foldl compressStep st
  ⟨(st.a + t.a) % W32, (st.b + t.b) % W32, (st.c + t.c) % W32,
   (st.d + t.d) % W32, (st.e + t.e) % W32, (st.f + t.f) % W32,
   (st.g + t.g) % W32, (st.h + t.h) % W32⟩

/-- Split into 64-byte blocks (structural recursion on a fuel that is at
least the number of blocks, so the definition reduces in the kernel). -/

def toBlocksGo : Nat → List Nat → List (List Nat)
  | 0, _ => []
  | _ + 1, [] => []
  | n + 1, c :: cs => ((c :: cs).take 64) :: toBlocksGo n ((c :: cs).drop 64)

def toBlocks (l : List Nat) : List (List Nat) := toBlocksGo l.length l

def wordToHex (w : Nat) : List Char :=
  [28, 24, 20, 16, 12, 8, 4, 0].map (fun k => hexDigitChar ((w >>> k) % 16))

/-- `hashlib.sha256(msg).hexdigest()` on a byte list. -/

def sha256hex (msg : List Nat) : String :=
  let final := (toBlocks (padMessage msg)).foldl processBlock sha256H0
  ⟨wordToHex final.a ++ wordToHex final.b ++ wordToHex final.c ++
   wordToHex final.d ++ wordToHex final.e ++ wordToHex final.f ++
   wordToHex final.g ++ wordToHex final.h⟩

/-- `Database.compute_content_hash`: SHA-256 hex digest of the UTF-8
encoded Python `repr` of the sorted `(name, size or "", date or "")`
triples. -/

def compute_content_hash (entries : List RawEntry) : String :=
  let tuples := pySortTriples (entries.map rawTriple)
  sha256hex (utf8Encode (pyReprTripleList tuples).data)

/-! ### Claim C6: properties of the content fingerprint -/

/-- Fixture row `(A, 1, d1)` of the spec. -/

def rowA : RawEntry := ⟨"A", "", some "1", some "d1", false⟩

/-- Fixture row `(B, 2, d2)` of the spec. -/

def rowB : RawEntry := ⟨"B", "", some "2", some "d2", false⟩

/-- Fixture row `(C, 3, d3)` of the spec. -/

def rowC : RawEntry := ⟨"C", "", some "3", some "d3", false⟩

/-- `rowB` with only its name changed. -/

def rowBname : RawEntry := ⟨"B2", "", some "2", some "d2", false⟩

/-- `rowB` with only its size changed. -/

def rowBsize : RawEntry := ⟨"B", "", some "9", some "d2", false⟩

/-- `rowB` with only its date changed. -/

def rowBdate : RawEntry := ⟨"B", "", some "2", some "d9", false⟩

/-! ### Metadata extraction (src/indexer/parser.py, lines 145-281)

`extract_platform` consults the module-level category table loaded from
`categories.json` (flattened to `(platform_string, manufacturer)` pairs,
sorted longest-first).  The table is data, not code, so it is passed to
the embedded functions as an explicit parameter. -/

/-- ASCII lower-casing, Python `str.lower()` for the ASCII range. -/

def pyLower (s : String) : String := ⟨s.data.map Char.toLower⟩

def hexVal (c : Char) : Option Nat :=
  if 48 ≤ c.toNat && c.toNat ≤ 57 then some (c.toNat - 48)
  else if 97 ≤ c.toNat && c.toNat ≤ 102 then some (c.toNat - 87)
  else if 65 ≤ c.toNat && c.toNat ≤ 70 then some (c.toNat - 55)
  else none

/-- Byte stream of a percent-encoded string: `%XX` pairs become single
bytes, everything else its UTF-8 bytes. -/

def percentBytes : List Char → List Nat
  | [] => []
  | '%' :: a :: b :: rest =>
    match hexVal a, hexVal b with
    | some x, some y => (16 * x + y) :: percentBytes rest
    | _, _ => utf8EncodeChar '%' ++ percentBytes (a :: b :: rest)
  | c :: rest => utf8EncodeChar c ++ percentBytes rest

/-- UTF-8 decoding with U+FFFD replacement for malformed sequences
(exact on well-formed input, which is all the verification exercises).
Structural recursion on a fuel bounded by the byte count. -/

def utf8DecodeGo : Nat → List Nat → List Char
  | 0, _ => []
  | _ + 1, [] => []
  | f + 1, b :: rest =>
    if b < 128 then Char.ofNat b :: utf8DecodeGo f rest
    else if 192 ≤ b && b < 224 then
      match rest with
      | b2 :: rest2 =>
        if 128 ≤ b2 && b2 < 192 then
          Char.ofNat ((b - 192) * 64 + (b2 - 128)) :: utf8DecodeGo f rest2
        else Char.ofNat 0xFFFD :: utf8DecodeGo f rest
      | [] => [Char.ofNat 0xFFFD]
    else if 224 ≤ b && b < 240 then
      match rest with
      | b2 :: b3 :: rest2 =>
        if (128 ≤ b2 && b2 < 192) && (128 ≤ b3 && b3 < 192) then
          Char.ofNat ((b - 224) * 4096 + (b2 - 128) * 64 + (b3 - 128)) ::
            utf8DecodeGo f rest2
        else Char.ofNat 0xFFFD :: utf8DecodeGo f rest
      | _ => [Char.ofNat 0xFFFD]
    else if 240 ≤ b && b < 248 then
      match rest with
      | b2 :: b3 :: b4 :: rest2 =>
        if ((128 ≤ b2 && b2 < 192) && (128 ≤ b3 && b3 < 192)) &&
           (128 ≤ b4 && b4 < 192) then
          Char.ofNat ((b - 240) * 262144 + (b2 - 128) * 4096 +
            (b3 - 128) * 64 + (b4 - 128)) :: utf8DecodeGo f rest2
        else Char.ofNat 0xFFFD :: utf8DecodeGo f rest
      | _ => [Char.ofNat 0xFFFD]
    else Char.ofNat 0xFFFD :: utf8DecodeGo f rest

def utf8Decode (l : List Nat) : List Char := utf8DecodeGo l.length l

/-- `urllib.parse.unquote`. -/

def pyUnquote (s : String) : String := ⟨utf8Decode (percentBytes s.data)⟩

/-- `parser.extract_collection`: first segment of `path.strip("/")`. -/

def extract_collection (path : String) : Option String :=
  match pySplitOn '/' (pyStripWith (· = '/') path.data) with
  | [] => none
  | p :: _ => some ⟨p⟩

/-- `parser.extract_platform`: first (longest, by the pre-sorted table)
category string contained case-insensitively in the decoded path,
falling back to the second path segment. -/

def extract_platform (flatCats : List (String × String)) (path : String) :
    Option String :=
  let decoded := pyUnquote path
  match flatCats.find?
      (fun pc => strContainsSub (pyLower pc.1) (pyLower decoded)) with
  | some pc => some pc.1
  | none =>
    let parts := pySplitOn '/' (pyStripWith (· = '/') decoded.data)
    if 2 ≤ parts.length then some ⟨parts.getD 1 []⟩ else none

/-- `parser._KNOWN_REGIONS`, in source order (the regex alternation tries
them left to right; no name is a prefix of another, so first-match
equals the regex's backtracking semantics). -/

def regionNames : List String :=
  ["USA", "Europe", "Japan", "World", "Germany", "France", "Spain",
   "Italy", "Korea", "Brazil", "UK", "Asia", "Australia", "Netherlands",
   "Sweden", "Norway", "Denmark", "Finland", "Portugal", "Russia",
   "China", "Taiwan", "Hong Kong", "Canada"]

/-- Match one region alternative case-insensitively at the head of `l`;
returns the matched length. -/

def matchRegionAt (l : List Char) : Option Nat :=
  (regionNames.find?
    (fun r => (pyLower r).data.isPrefixOf (l.map Char.toLower))).map
    (fun r => r.data.length)

/-- Consume `(\s*,\s*REGION)*` repetitions; returns total consumed length
when the next character is the closing paren. -/

def regionReps : Nat → List Char → Nat → Option Nat
  | 0, _, _ => none
  | f + 1, l, consumed =>
    match l with
    | ')' :: _ => some consumed
    | _ =>
      let ws1 := l.takeWhile pyIsSpace
      let l1 := l.dropWhile pyIsSpace
      match l1 with
      | ',' :: l2 =>
        let ws2 := l2.takeWhile pyIsSpace
        let l3 := l2.dropWhile pyIsSpace
        match matchRegionAt l3 with
        | some k =>
          regionReps f (l3.drop k)
            (consumed + ws1.length + 1 + ws2.length + k)
        | none => none
      | _ => none

/-- Try the region group right after an opening paren: a region followed
by comma-separated regions, immediately followed by `)`; returns the
length of capture group 1. -/

def regionGroup (l : List Char) : Option Nat :=
  match matchRegionAt l with
  | none => none
  | some k => regionReps (l.length + 1) (l.drop k) k

/-- Leftmost search for the `\((REGION(\s*,\s*REGION)*)\)` pattern. -/

def regionSearch : List Char → Option String
  | [] => none
  | c :: cs =>
    if c = '(' then
      match regionGroup cs with
      | some k => some ⟨cs.take k⟩
      | none => regionSearch cs
    else regionSearch cs

/-- `parser.extract_region`. -/

def extract_region (name : String) : Option String := regionSearch name.data

/-- `parser.extract_file_type`: lower-cased text after the last dot. -/

def extract_file_type (name : String) : Option String :=
  if '.' ∈ name.data then
    some (pyLower ⟨(name.data.reverse.takeWhile (· ≠ '.')).reverse⟩)
  else none

/-- A normalized entry record, the dict built by `parser.build_entry`. -/

structure Entry where
  path : String
  name : String
  is_directory : Bool
  file_size : Option String
  last_modified : Option String
  collection : Option String
  platform : Option String
  region : Option String
  file_type : Option String
  parent_path : String
deriving DecidableEq

/-- `full_path.rsplit("/", 2)`: split from the right at most twice. -/

def pyRsplit2Slash (l : List Char) : List (List Char) :=
  let segs := pySplitOn '/' l
  if segs.length ≤ 3 then segs
  else joinWith ['/'] (segs.take (segs.length - 2)) :: segs.drop (segs.length - 2)

/-- `parser.build_entry`.  The platform conditional mirrors the source
line, whose two branches are syntactically identical. -/

def build_entry (flatCats : List (String × String)) (href name : String)
    (is_directory : Bool) (size date : Option String)
    (parent_url_path : String) : Entry :=
  let tail : String := if is_directory then "/" else ""
  let full0 : String :=
    if parent_url_path.data.getLast? = some '/' then
      parent_url_path ++ name ++ tail
    else parent_url_path ++ "/" ++ name ++ tail
  let full_path := normalize_path ⟨pyLstripChar '/' full0.data⟩
  { path := full_path
    name := name
    is_directory := is_directory
    file_size := size
    last_modified := normalize_myrient_date date
    collection := extract_collection full_path
    platform :=
      if !is_directory || full_path.data.count '/' ≤ 2 then
        extract_platform flatCats full_path
      else extract_platform flatCats full_path
    region := if !is_directory then extract_region name else none
    file_type := if !is_directory then extract_file_type name else none
    parent_path :=
      if '/' ∈ pyRstripChar '/' full_path.data then
        normalize_path ⟨(pyRsplit2Slash full_path.data).headD [] ++ ['/']⟩
      else "" }

/-! ### The crawler (src/indexer/crawler.py)

`_crawl_directory` is modelled as a sequential state/trace semantics: the
HTTP layer is a `fetch` parameter (`none` = non-200/timeout/transport
error, which abandons the branch), database writes become trace events,
and the concurrent `asyncio.gather` recursion is serialized in listing
order (every claim checked here is per-directory and insensitive to the
interleaving of sibling subtrees).  Recursion is bounded by fuel; the
remote tree is finite and every theorem below either holds for all fuels
or is instantiated with sufficient fuel. -/

/-- `crawler.BATCH_SIZE`. -/

def BATCH_SIZE : Nat := 1000

/-- Database write / crawl events, in the order the crawler issues them. -/

inductive Ev where
  | visit (path : String)
  | fetchError (path : String)
  | insertBatch (entries : List Entry)
  | upsertSyncMeta (path : String) (etag lastModified : Option String)
      (entryCount : Nat) (contentHash : String)
  | removeMissing (path : String) (names : List String)
deriving DecidableEq

/-- One fetched directory page: parsed rows plus the response headers. -/

structure FetchResult where
  raw : List RawEntry
  etag : Option String
  lastModified : Option String
deriving DecidableEq

/-- Crawler-visible state: the stored `sync_meta` content hashes (`none`
models a row whose `content_hash` column is NULL), the shared in-memory
entry buffer, and the trace of events issued so far. -/

structure CState where
  syncMeta : List (String × Option String)
  buffer : List Entry
  trace : List Ev
deriving DecidableEq

/-- `Database.get_sync_meta(path)["content_hash"]` (outer `none`: no row). -/

def lookupSyncMeta (m : List (String × Option String)) (p : String) :
    Option (Option String) :=
  (m.find? (fun kv => kv.1 == p)).map (fun kv => kv.2)

/-- `Database.upsert_sync_meta` on the modelled column (keyed by path). -/

def updateSyncMeta (m : List (String × Option String)) (p : String)
    (h : Option String) : List (String × Option String) :=
  (p, h) :: m.filter (fun kv => kv.1 ≠ p)

/-- Python `set.add` preserving first-insertion order. -/

def pySetAdd (names : List String) (n : String) : List String :=
  if n ∈ names then names else names ++ [n]

/-- Accumulator of the row loop in `_crawl_directory` (lines 146-179):
observed names, entries to insert, subdirectories to recurse into. -/

structure RowAcc where
  names : List String
  entries : List Entry
  subdirs : List String
deriving DecidableEq

/-- The row loop of `_crawl_directory`: skip `.`/`./` rows; collect every
other name; build an entry unless DB writes are skipped; collect each
subdirectory whose normalized path passes the `.`-segment safety check. -/

def collectRowsGo (flatCats : List (String × String)) (skip : Bool)
    (rel_path : String) : List RawEntry → RowAcc → RowAcc
  | [], acc => acc
  | r :: rest, acc =>
    if r.name = "." || r.name = "./" then
      collectRowsGo flatCats skip rel_path rest acc
    else
      let names := pySetAdd acc.names r.name
      let entries :=
        if !skip then
          acc.entries ++
            [build_entry flatCats r.href r.name r.is_directory r.size r.date rel_path]
        else acc.entries
      if r.is_directory then
        let sub_path0 :=
          if rel_path ≠ "" then rel_path ++ r.name ++ "/" else r.name ++ "/"
        let sub_path := normalize_path sub_path0
        if strContainsSub "/." sub_path || strStartsWith "." sub_path then
          collectRowsGo flatCats skip rel_path rest ⟨names, entries, acc.subdirs⟩
        else
          collectRowsGo flatCats skip rel_path rest
            ⟨names, entries, acc.subdirs ++ [sub_path]⟩
      else collectRowsGo flatCats skip rel_path rest ⟨names, entries, acc.subdirs⟩

def collectRows (flatCats : List (String × String)) (skip : Bool)
    (rel_path : String) (raw : List RawEntry) : RowAcc :=
  collectRowsGo flatCats skip rel_path raw ⟨[], [], []⟩

/-- The body of `_crawl_directory` after fetch+parse (lines 128-196):
content-hash change detection, the row loop, buffering with a batch flush
once the shared buffer reaches `BATCH_SIZE`, the sync-meta upsert, and
(incrementally) stale-entry pruning.  Returns the subdirectories to
recurse into and the updated state. -/

def skipFlag (incremental : Bool) (syncMeta : List (String × Option String))
    (rel_path : String) (raw : List RawEntry) : Bool :=
  incremental &&
    (match lookupSyncMeta syncMeta rel_path with
     | some h => h == some (compute_content_hash raw)
     | none => false)

def processDir (flatCats : List (String × String)) (incremental : Bool)
    (rel_path : String) (fr : FetchResult) (s : CState) :
    List String × CState :=
  let content_hash := compute_content_hash fr.raw
  let skip_db_writes := skipFlag incremental s.syncMeta rel_path fr.raw
  let acc := collectRows flatCats skip_db_writes rel_path fr.raw
  if skip_db_writes then (acc.subdirs, s)
  else
    let buf := s.buffer ++ acc.entries
    let flushed := BATCH_SIZE ≤ buf.length
    let buf2 := if flushed then buf.drop BATCH_SIZE else buf
    let tr2 :=
      if flushed then s.trace ++ [Ev.insertBatch (buf.take BATCH_SIZE)]
      else s.trace
    let tr3 := tr2 ++
      [Ev.upsertSyncMeta rel_path fr.etag fr.lastModified fr.raw.length content_hash]
    let tr4 := if incremental then tr3 ++ [Ev.removeMissing rel_path acc.names]
      else tr3
    (acc.subdirs, ⟨updateSyncMeta s.syncMeta rel_path (some content_hash), buf2, tr4⟩)

/-- `_crawl_directory`: normalize, fetch (errors abandon the branch),
emit the visit, process the directory, recurse into the subdirectories. -/

def crawlDir (flatCats : List (String × String))
    (fetch : String → Option FetchResult) (incremental : Bool) :
    Nat → String → CState → CState
  | 0, _, s => s
  | f + 1, rel_path0, s =>
    let rel_path := normalize_path rel_path0
    match fetch rel_path with
    | none => {s with trace := s.trace ++ [Ev.fetchError rel_path]}
    | some fr =>
      let s1 : CState := {s with trace := s.trace ++ [Ev.visit rel_path]}
      let step := processDir flatCats incremental rel_path fr s1
      step.1.foldl (fun st sub => crawlDir flatCats fetch incremental f sub st) step.2

/-- `_flush_buffer`. -/

def flushBuffer (s : CState) : CState :=
  if s.buffer.isEmpty then s
  else ⟨s.syncMeta, [], s.trace ++ [Ev.insertBatch s.buffer]⟩

/-- `MyrientCrawler.crawl`: crawl from the root (`rel_path = ""`) against
the previously stored sync metadata, then flush the remaining buffer.
(CrawlState progress bookkeeping is not modelled.) -/

def crawl (flatCats : List (String × String))
    (fetch : String → Option FetchResult) (incremental : Bool)
    (fuel : Nat) (meta0 : List (String × Option String)) : CState :=
  flushBuffer (crawlDir flatCats fetch incremental fuel "" ⟨meta0, [], []⟩)

/-! ### Claim C1: incremental skip -/

/-- Root listing of the C1 run: one subdirectory `A`. -/

def c1Root : List RawEntry := [⟨"A", "A/", none, none, true⟩]

/-- Listing of subdirectory `A/`: one file. -/

def c1Child : List RawEntry :=
  [⟨"f.zip", "f.zip", some "1 KB", some "2024-01-15 10:30", false⟩]

def c1Fetch : String → Option FetchResult := fun p =>
  if p = "" then some ⟨c1Root, none, none⟩
  else if p = "A/" then some ⟨c1Child, none, none⟩
  else none

/-- Stored sync metadata: the root's fingerprint already matches. -/

def c1Meta : List (String × Option String) :=
  [("", some (compute_content_hash c1Root))]

def c1Entry : Entry :=
  build_entry [] "f.zip" "f.zip" false (some "1 KB") (some "2024-01-15 10:30") "A/"

/-! ### Claim C3: fingerprint write vs. entry persistence -/

/-- Listing of the C3 run's root: a single file. -/

def c3Raw : List RawEntry := [⟨"g.zip", "g.zip", some "2 KB", none, false⟩]

def c3Fetch : String → Option FetchResult := fun p =>
  if p = "" then some ⟨c3Raw, none, none⟩ else none

def c3Entry : Entry := build_entry [] "g.zip" "g.zip" false (some "2 KB") none ""

/-- Rows agreeing on `(name, size or "", date or "")` but differing in
`href`, `is_directory` and `None`-vs-`""` size. -/

def c10RowA : RawEntry := ⟨"x.zip", "x.zip", none, some "d", false⟩

def c10RowB : RawEntry := ⟨"x.zip", "other-href", some "", some "d", true⟩

/-! ### The entries table, its FTS shadow index and the triggers
(src/indexer/database.py, SCHEMA_SQL lines 12-90, insert_entries_batch
lines 129-143, remove_missing_entries lines 525-538,
cleanup_dotslash_duplicates lines 540-616; claim C2) -/

/-- The FTS5-indexed columns `(name, path, collection, platform, region)`
that the `entries_ai`/`entries_ad` triggers write. -/

structure FtsFields where
  name : String
  path : String
  collection : Option String
  platform : Option String
  region : Option String
deriving DecidableEq

def ftsFieldsOf (e : Entry) : FtsFields :=
  ⟨e.name, e.path, e.collection, e.platform, e.region⟩

/-- A stored row of `entries` with its rowid (`id INTEGER PRIMARY KEY
AUTOINCREMENT`). -/

structure DBRow where
  id : Nat
  entry : Entry
deriving DecidableEq

/-- The store: the AUTOINCREMENT counter, the `entries` table, and the
`entries_fts` shadow index as (rowid, indexed fields) pairs. -/

structure DBState where
  nextId : Nat
  entries : List DBRow
  fts : List (Nat × FtsFields)
deriving DecidableEq

def emptyDB : DBState := ⟨1, [], []⟩

/-- One `INSERT OR REPLACE INTO entries`, under SQLite's documented
semantics with the connection's default `recursive_triggers = OFF`
(`Database.connect` never enables it): the REPLACE conflict resolution
deletes any existing row with the same unique `path` WITHOUT firing the
`entries_ad` delete trigger, then the insert (with a fresh AUTOINCREMENT
rowid) fires `entries_ai`, which adds exactly one FTS index entry. -/

def insertOrReplaceOne (db : DBState) (e : Entry) : DBState :=
  ⟨db.nextId + 1,
   db.entries.filter (fun r => r.entry.path ≠ e.path) ++ [⟨db.nextId, e⟩],
   db.fts ++ [(db.nextId, ftsFieldsOf e)]⟩

/-- `Database.insert_entries_batch`: `executemany` of the upsert. -/

def insert_entries_batch (db : DBState) (es : List Entry) : DBState :=
  es.foldl insertOrReplaceOne db

/-- A plain `DELETE FROM entries WHERE …` fires `entries_ad` once per
deleted row; the delete command the trigger inserts removes that rowid
from the FTS
index entry. -/

def deleteWhere (pred : Entry → Bool) (db : DBState) : DBState :=
  ⟨db.nextId,
   db.entries.filter (fun r => !pred r.entry),
   db.fts.filter (fun f =>
     !((db.entries.filter (fun r => pred r.entry)).any (fun r => r.id == f.1)))⟩

/-- `Database.remove_missing_entries`: delete the entries under
`parent_path` whose name is no longer listed. -/

def remove_missing_entries (parent_path : String)
    (current_names : List String) (db : DBState) : DBState :=
  deleteWhere
    (fun e => e.parent_path == parent_path && !(current_names.contains e.name)) db

/-- The rebuild command issued on `entries_fts`: the FTS index is
rebuilt from the content table. -/

def rebuildFts (db : DBState) : DBState :=
  ⟨db.nextId, db.entries, db.entries.map (fun r => (r.id, ftsFieldsOf r.entry))⟩

/-- `Database.cleanup_dotslash_duplicates` on the entries/FTS state:
three trigger-firing deletes (paths containing `/./`, paths starting with
`./`, names equal to `.`), then the FTS rebuild.  (The `sync_meta` sweep
and the ANALYZE/WAL maintenance touch neither table.) -/

def cleanup_dotslash_duplicates (db : DBState) : DBState :=
  let db1 := deleteWhere (fun e => strContainsSub "/./" e.path) db
  let db2 := deleteWhere (fun e => strStartsWith "./" e.path) db1
  let db3 := deleteWhere (fun e => e.name == ".") db2
  rebuildFts db3

/-- The write operations claim C2 quantifies over. -/

inductive DBOp where
  | insertBatch (es : List Entry)
  | removeMissing (parent_path : String) (current_names : List String)
  | cleanup
deriving DecidableEq

def applyOp (db : DBState) : DBOp → DBState
  | .insertBatch es => insert_entries_batch db es
  | .removeMissing p ns => remove_missing_entries p ns db
  | .cleanup => cleanup_dotslash_duplicates db

def applyOps (db : DBState) (ops : List DBOp) : DBState := ops.foldl applyOp db

/-- An insert is path-fresh when no stored row has the inserted path, so
the REPLACE resolution deletes nothing. -/

def freshInsert (db : DBState) (e : Entry) : Bool :=
  db.entries.all (fun r => r.entry.path ≠ e.path)

def freshBatch : DBState → List Entry → Bool
  | _, [] => true
  | db, e :: es => freshInsert db e && freshBatch (insertOrReplaceOne db e) es

def freshOps : DBState → List DBOp → Bool
  | _, [] => true
  | db, op :: ops =>
    (match op with
     | .insertBatch es => freshBatch db es
     | _ => true) && freshOps (applyOp db op) ops

/-- Well-formedness: the FTS index is exactly the per-row image of the
entries table, and rowids are distinct and below the counter. -/

def wfDB (db : DBState) : Prop :=
  db.fts = db.entries.map (fun r => (r.id, ftsFieldsOf r.entry))
  ∧ (db.entries.map DBRow.id).Nodup
  ∧ ∀ r ∈ db.entries, r.id < db.nextId

/-! ### Claim C2: FTS index / primary table consistency -/

def c2Entry : Entry :=
  ⟨"p.zip", "p.zip", false, none, none, some "C", none, none, some "zip", ""⟩

def c2Entry2 : Entry :=
  ⟨"q.zip", "q.zip", false, none, none, some "C", none, none, some "zip", ""⟩

/-! ### `Database.search` (src/indexer/database.py, lines 277-390;
claims C5 and C9) -/

/-- The characters the sanitizer replaces by spaces (the bracketed
punctuation class of the first `re.sub` in `Database.search`, line 294:
plus, ampersand, pipe, slash, backslash, tilde, caret, braces, parens,
square brackets, angle brackets, colon, semicolon, bang, at, hash,
dollar, percent). -/

def ftsPunct : List Char :=
  ['+', '&', '|', '/', Char.ofNat 92, '~', '^', Char.ofNat 123, Char.ofNat 125,
   '(', ')', '[', ']', '<', '>', ':', ';', '!', '@', '#', '$', '%']

def cleanPunct (l : List Char) : List Char :=
  l.map (fun c => if c ∈ ftsPunct then ' ' else c)

/-- ASCII word characters, for the `\b` boundaries of the keyword
stripper. -/

def isWordChar (c : Char) : Bool := c.isAlphanum || c = '_'

/-- Try the four operator keywords (in the alternation order of
`\b(AND|OR|NOT|NEAR)\b`, case-insensitively) at the head of `l`,
requiring a word boundary after the match; returns the rest on success. -/

def matchKw (l : List Char) : Option (List Char) :=
  match ["and", "or", "not", "near"].find? (fun kw =>
    (l.take kw.data.length).map Char.toLower == kw.data &&
    (match l.drop kw.data.length with
     | [] => true
     | c :: _ => !isWordChar c)) with
  | some kw => some (l.drop kw.data.length)
  | none => none

/-- The `re.sub` replacing `\b(AND|OR|NOT|NEAR)\b` (case-insensitively)
by the empty string:
left-to-right scan; a match may start only at a word boundary; scanning
resumes right after a removed keyword (whose final character is a word
character, so the boundary flag becomes true).  The Boolean argument
tracks whether the previous character was a word character. -/

def stripOpsGo : Nat → Bool → List Char → List Char
  | 0, _, l => l
  | f + 1, prevW, l =>
    match l with
    | [] => []
    | c :: cs =>
      if !prevW then
        match matchKw (c :: cs) with
        | some rest => stripOpsGo f true rest
        | none => c :: stripOpsGo f (isWordChar c) cs
      else c :: stripOpsGo f (isWordChar c) cs

/-- Python `s.split()`: tokens separated by whitespace runs. -/

def pySplitWsGo : List Char → List Char → List (List Char)
  | [], acc => if acc.isEmpty then [] else [acc.reverse]
  | c :: cs, acc =>
    if pyIsSpace c then
      if acc.isEmpty then pySplitWsGo cs [] else acc.reverse :: pySplitWsGo cs []
    else pySplitWsGo cs (c :: acc)

def pySplitWs (l : List Char) : List (List Char) := pySplitWsGo l []

/-- The per-token strip of surrounding double and single quotes. -/

def stripQuotes (l : List Char) : List Char :=
  pyStripWith (fun c => c = Char.ofNat 34 || c = Char.ofNat 39) l

/-- Double-quote escaping of the token and its quoting as a prefix term
(`safe` and `fts_terms.append` of `Database.search`, lines 303-304). -/

def mkFtsTerm (tok : List Char) : String :=
  let dq : Char := Char.ofNat 34
  ⟨dq :: (tok.map (fun c => if c = dq then [dq, dq] else [c])).flatten ++ [dq, '*']⟩

/-- The query sanitizer of `Database.search` (lines 290-304):
punctuation to spaces, operator keywords removed, `strip().split()`,
per-token quote strip, empty tokens dropped, each survivor quoted as a
prefix term. -/

def ftsTerms (query : String) : List String :=
  let cleaned1 := cleanPunct query.data
  let cleaned2 := stripOpsGo (cleaned1.length + 1) false cleaned1
  let toks := pySplitWs (pyStripWith pyIsSpace cleaned2)
  ((toks.map stripQuotes).filter (fun t => !t.isEmpty)).map mkFtsTerm

/-- `value.split(",")`, each piece `.strip()`ped, empties dropped
(the list comprehension in `add_multi_filter`). -/

def splitCommaVals (v : String) : List String :=
  (((pySplitOn ',' v.data).map (pyStripWith pyIsSpace)).filter
    (fun seg => !seg.isEmpty)).map (fun seg => (⟨seg⟩ : String))

/-- `add_multi_filter` (lines 320-329): one value becomes an equality
condition, several become an `IN`, none (the values list is empty) adds
no condition at all.  SQL `=`/`IN` on a NULL column never matches, hence
the `Option.some` comparisons. -/

def multiFilterConds (field : Entry → Option String) (value : String) :
    List (Entry → Bool) :=
  match splitCommaVals value with
  | [] => []
  | [x] => [fun e => field e == some x]
  | xs => [fun e => xs.any (fun x => field e == some x)]

/-- Python truthiness of an optional string parameter (`if collection:`):
present and nonempty. -/

def optTruthy : Option String → Option String
  | none => none
  | some s => if s = "" then none else some s

/-- The WHERE conditions `Database.search` assembles (lines 313-339), in
source order: `files_only`, `collection`, `platform`, `file_type`
(a single verbatim equality — no comma splitting), `region`. -/

def searchConds (collection platform file_type region : Option String)
    (files_only : Bool) : List (Entry → Bool) :=
  (if files_only then ([fun e => e.is_directory == false] : List (Entry → Bool))
   else [])
  ++ (match optTruthy collection with
      | some v => multiFilterConds Entry.collection v
      | none => ([] : List (Entry → Bool)))
  ++ (match optTruthy platform with
      | some v => multiFilterConds Entry.platform v
      | none => ([] : List (Entry → Bool)))
  ++ (match optTruthy file_type with
      | some v => ([fun e => e.file_type == some v] : List (Entry → Bool))
      | none => ([] : List (Entry → Bool)))
  ++ (match optTruthy region with
      | some v => multiFilterConds Entry.region v
      | none => ([] : List (Entry → Bool)))

/-- A row satisfies the assembled WHERE conditions. -/

def rowMatchesFilters (collection platform file_type region : Option String)
    (files_only : Bool) (e : Entry) : Bool :=
  (searchConds collection platform file_type region files_only).all
    (fun c => c e)

/-- The paged result dictionary `Database.search` returns. -/

structure SearchResult where
  total : Nat
  page : Nat
  per_page : Nat
  pages : Nat
  results : List Entry
deriving DecidableEq

/-- `Database.search`.  The SQLite FTS5 engine — the evaluation of
`entries_fts MATCH :query` and of `ORDER BY` — is external to the
repository, so it is passed in as the parameters `ftsMatch` (which rows
match the sanitized FTS query) and `orderBy` (the engine's ordering of
the matched rows); `LIMIT :limit OFFSET :offset` becomes drop/take. -/

def dbSearch (ftsMatch : String → Entry → Bool)
    (orderBy : List Entry → List Entry) (rows : List Entry) (query : String)
    (collection platform file_type region : Option String)
    (files_only : Bool) (page per_page : Nat) : SearchResult :=
  let terms := ftsTerms query
  if terms.isEmpty then
    ⟨0, page, per_page, 0, []⟩
  else
    let fts_query := String.intercalate " AND " terms
    let matched := rows.filter (fun e =>
      ftsMatch fts_query e &&
      rowMatchesFilters collection platform file_type region files_only e)
    let total := matched.length
    ⟨total, page, per_page, (total + per_page - 1) / per_page,
     ((orderBy matched).drop ((page - 1) * per_page)).take per_page⟩

/-! ### Claim C5: filter semantics -/

/-- The code's per-field multi-value semantics: absent/empty filter
matches everything; otherwise OR over the cleaned comma-split values
(an all-commas value adds no condition). -/

def fieldMultiMatches (field : Entry → Option String)
    (filter : Option String) (e : Entry) : Bool :=
  match optTruthy filter with
  | none => true
  | some v =>
    match splitCommaVals v with
    | [] => true
    | xs => xs.any (fun x => field e == some x)

/-- The semantics claim C5 asserts (stated from the spec's words, for
comparison with the code's `rowMatchesFilters`): each of the four fields
— `file_type` included — accepts a comma-separated set, OR within a
field, AND across fields. -/

def claimMatchesFilters (c p f r : Option String) (fo : Bool) (e : Entry) :
    Bool :=
  (if fo then e.is_directory == false else true)
  && fieldMultiMatches Entry.collection c e
  && fieldMultiMatches Entry.platform p e
  && fieldMultiMatches Entry.file_type f e
  && fieldMultiMatches Entry.region r e

def c5Row : Entry :=
  ⟨"a.zip", "a.zip", false, none, none, some "C", some "P", some "USA",
   some "zip", ""⟩

/-! ## Verification -/

/-! ### Properties of `pySplitOn` / `joinWith` used for claim C7 -/

theorem pySplitOn_ne_nil (sep : Char) (l : List Char) : pySplitOn sep l ≠ [] := by
  induction l with
  | nil => simp [pySplitOn]
  | cons c cs ih =>
    simp only [pySplitOn]
    by_cases h : c = sep
    · simp [h]
    · simp only [h, if_neg, ite_false]
      cases hs : pySplitOn sep cs <;> simp

theorem mem_pySplitOn_not_mem (sep : Char) (l : List Char) :
    ∀ seg ∈ pySplitOn sep l, sep ∉ seg := by
  induction l with
  | nil => intro seg h; simp [pySplitOn] at h; simp [h]
  | cons c cs ih =>
    intro seg h
    simp only [pySplitOn] at h
    by_cases hc : c = sep
    · simp only [hc, if_true, ite_true, List.mem_cons] at h
      rcases h with h | h
      · simp [h]
      · exact ih seg h
    · simp only [hc, ite_false] at h
      cases hs : pySplitOn sep cs with
      | nil => exact absurd hs (pySplitOn_ne_nil sep cs)
      | cons seg0 rest =>
        rw [hs] at h
        rcases List.mem_cons.mp h with h | h
        · subst h
          intro hmem
          rcases List.mem_cons.mp hmem with h | h
          · exact hc h.symm
          · exact ih seg0 (by rw [hs]; exact List.mem_cons_self _ _) h
        · exact ih seg (by rw [hs]; exact List.mem_cons_of_mem _ h)

theorem pySplitOn_cons_of_ne (sep c : Char) (cs : List Char) (h : c ≠ sep) :
    pySplitOn sep (c :: cs) =
      (c :: (pySplitOn sep cs).headI) :: (pySplitOn sep cs).tail := by
  simp only [pySplitOn, h, ite_false]
  cases hs : pySplitOn sep cs with
  | nil => exact absurd hs (pySplitOn_ne_nil sep cs)
  | cons seg rest => simp [List.headI]

theorem pySplitOn_of_not_mem (sep : Char) (l : List Char) (h : sep ∉ l) :
    pySplitOn sep l = [l] := by
  induction l with
  | nil => simp [pySplitOn]
  | cons c cs ih =>
    have hc : c ≠ sep := fun he => h (he ▸ List.mem_cons_self c cs)
    have hcs : sep ∉ cs := fun hm => h (List.mem_cons_of_mem c hm)
    rw [pySplitOn_cons_of_ne sep c cs hc, ih hcs]
    simp [List.headI]

theorem pySplitOn_append_sep (sep : Char) (x y : List Char) (hx : sep ∉ x) :
    pySplitOn sep (x ++ sep :: y) = x :: pySplitOn sep y := by
  induction x with
  | nil => simp [pySplitOn]
  | cons c cs ih =>
    have hc : c ≠ sep := fun he => hx (he ▸ List.mem_cons_self c cs)
    have hcs : sep ∉ cs := fun hm => hx (List.mem_cons_of_mem c hm)
    have : (c :: cs) ++ sep :: y = c :: (cs ++ sep :: y) := by simp
    rw [this, pySplitOn_cons_of_ne sep c _ hc, ih hcs]
    simp [List.headI]

theorem pySplitOn_append_last_sep (sep : Char) (l : List Char) :
    pySplitOn sep (l ++ [sep]) = pySplitOn sep l ++ [[]] := by
  induction l with
  | nil => simp [pySplitOn]
  | cons c cs ih =>
    by_cases hc : c = sep
    · subst hc
      simp only [List.cons_append, pySplitOn, if_true, ite_true, List.append_eq]
      rw [ih]
    · have h1 : (c :: cs) ++ [sep] = c :: (cs ++ [sep]) := by simp
      rw [h1, pySplitOn_cons_of_ne sep c _ hc, ih, pySplitOn_cons_of_ne sep c cs hc]
      cases hs : pySplitOn sep cs with
      | nil => exact absurd hs (pySplitOn_ne_nil sep cs)
      | cons seg rest => simp [List.headI]

theorem pySplitOn_joinWith (sep : Char) (ls : List (List Char))
    (hne : ls ≠ []) (h : ∀ seg ∈ ls, sep ∉ seg) :
    pySplitOn sep (joinWith [sep] ls) = ls := by
  induction ls with
  | nil => exact absurd rfl hne
  | cons x rest ih =>
    cases rest with
    | nil => exact pySplitOn_of_not_mem sep x (h x (List.mem_cons_self _ _))
    | cons y rest2 =>
      have hx : sep ∉ x := h x (List.mem_cons_self _ _)
      have hrest : ∀ seg ∈ y :: rest2, sep ∉ seg := fun seg hs =>
        h seg (List.mem_cons_of_mem _ hs)
      have hj : joinWith [sep] (x :: y :: rest2) =
          x ++ sep :: joinWith [sep] (y :: rest2) := by
        simp [joinWith]
      rw [hj, pySplitOn_append_sep sep x _ hx, ih (by simp) hrest]

theorem getLast?_append_right (a b : List Char) (h : b ≠ []) :
    (a ++ b).getLast? = b.getLast? := by
  rw [List.getLast?_append, List.getLast?_eq_getLast b h]
  rfl

theorem mem_cleanedSegs (l : List Char) :
    ∀ seg ∈ (pySplitOn '/' l).filter keepSeg,
      seg ≠ [] ∧ seg ≠ ['.'] ∧ '/' ∉ seg := by
  intro seg hseg
  rcases List.mem_filter.mp hseg with ⟨hmem, hkeep⟩
  have h1 : '/' ∉ seg := mem_pySplitOn_not_mem '/' l seg hmem
  simp only [keepSeg, Bool.and_eq_true, bne_iff_ne, ne_eq,
    Bool.not_eq_true', List.isEmpty_eq_false] at hkeep
  exact ⟨hkeep.1, of_decide_eq_true hkeep.2, h1⟩

theorem joinWith_ne_nil (sep : Char) (x : List Char) (rest : List (List Char))
    (hx : x ≠ []) : joinWith [sep] (x :: rest) ≠ [] := by
  cases rest with
  | nil => simpa [joinWith] using hx
  | cons y r2 => simp [joinWith, hx]

theorem getLast?_joinWith (sep : Char) (ls : List (List Char)) (hne : ls ≠ [])
    (h : ∀ seg ∈ ls, seg ≠ [] ∧ sep ∉ seg) :
    ∃ c, (joinWith [sep] ls).getLast? = some c ∧ c ≠ sep := by
  induction ls with
  | nil => exact absurd rfl hne
  | cons x rest ih =>
    cases rest with
    | nil =>
      have hx := h x (List.mem_cons_self _ _)
      refine ⟨x.getLast hx.1, ?_, ?_⟩
      · simpa [joinWith] using List.getLast?_eq_getLast x hx.1
      · intro he
        exact hx.2 (he ▸ List.getLast_mem hx.1)
    | cons y r2 =>
      have hy : ∀ seg ∈ y :: r2, seg ≠ [] ∧ sep ∉ seg := fun seg hs =>
        h seg (List.mem_cons_of_mem _ hs)
      obtain ⟨c, hc1, hc2⟩ := ih (by simp) hy
      refine ⟨c, ?_, hc2⟩
      have hJ : joinWith [sep] (y :: r2) ≠ [] :=
        joinWith_ne_nil sep y r2 (hy y (List.mem_cons_self _ _)).1
      have : joinWith [sep] (x :: y :: r2) =
          x ++ (sep :: joinWith [sep] (y :: r2)) := by simp [joinWith]
      rw [this, getLast?_append_right _ _ (by simp), List.getLast?_cons]
      rw [hc1]
      rfl

theorem keepSeg_iff (seg : List Char) :
    keepSeg seg = true ↔ seg ≠ [] ∧ seg ≠ ['.'] := by
  simp [keepSeg, List.isEmpty_iff]

theorem cleaned_filter_self (l : List Char) :
    ((pySplitOn '/' l).filter keepSeg).filter keepSeg =
      (pySplitOn '/' l).filter keepSeg := by
  rw [List.filter_eq_self]
  intro seg hseg
  have h := mem_cleanedSegs l seg hseg
  exact (keepSeg_iff seg).mpr ⟨h.1, h.2.1⟩

theorem normalizePathL_of_cleaned_nil (l : List Char)
    (h : (pySplitOn '/' l).filter keepSeg = []) : normalizePathL l = [] := by
  simp [normalizePathL, h, joinWith]

theorem normalizePathL_nil : normalizePathL [] = [] := by
  simp [normalizePathL, pySplitOn, keepSeg, joinWith]

/-- In the non-degenerate case, `_normalize_path` returns the rejoined
cleaned segments, with the trailing slash restored iff the input ended in
a slash. -/

theorem normalizePathL_of_cleaned_cons (l : List Char) (x : List Char)
    (rest : List (List Char))
    (hC : (pySplitOn '/' l).filter keepSeg = x :: rest) :
    normalizePathL l =
      (if l.getLast? = some '/' then
        joinWith ['/'] (x :: rest) ++ ['/']
      else joinWith ['/'] (x :: rest)) := by
  have hx : x ≠ [] :=
    (mem_cleanedSegs l x (by rw [hC]; exact List.mem_cons_self _ _)).1
  have hJ : joinWith ['/'] (x :: rest) ≠ [] := joinWith_ne_nil '/' x rest hx
  simp only [normalizePathL, hC]
  by_cases hcond : l.getLast? = some '/'
  · simp [hcond, List.isEmpty_iff, hJ]
  · simp [hcond]

/-- Normalizing a path does not change which non-trivial segments it has:
the cleaned segment list of the output is that of the input. -/

theorem filter_pySplitOn_normalizePathL (l : List Char) :
    (pySplitOn '/' (normalizePathL l)).filter keepSeg =
      (pySplitOn '/' l).filter keepSeg := by
  cases hC : (pySplitOn '/' l).filter keepSeg with
  | nil =>
    rw [normalizePathL_of_cleaned_nil l hC]
    simp [pySplitOn, keepSeg]
  | cons x rest =>
    have hfacts : ∀ seg ∈ x :: rest, '/' ∉ seg := by
      intro seg hs
      exact (mem_cleanedSegs l seg (by rw [hC]; exact hs)).2.2
    have hsplit : pySplitOn '/' (joinWith ['/'] (x :: rest)) = x :: rest :=
      pySplitOn_joinWith '/' (x :: rest) (by simp) hfacts
    have hself : (x :: rest).filter keepSeg = x :: rest := by
      rw [← hC]; exact cleaned_filter_self l
    rw [normalizePathL_of_cleaned_cons l x rest hC]
    by_cases hcond : l.getLast? = some '/'
    · simp only [hcond, if_true, ite_true]
      rw [pySplitOn_append_last_sep, hsplit, List.filter_append, hself]
      simp [keepSeg]
    · simp only [hcond, ite_false]
      rw [hsplit, hself]

/-- No `.`-only segment survives in the output of `_normalize_path`. -/

theorem not_dot_pySplitOn_normalizePathL (l : List Char) :
    ∀ seg ∈ pySplitOn '/' (normalizePathL l), seg ≠ ['.'] := by
  intro seg hseg
  cases hC : (pySplitOn '/' l).filter keepSeg with
  | nil =>
    rw [normalizePathL_of_cleaned_nil l hC] at hseg
    simp [pySplitOn] at hseg
    simp [hseg]
  | cons x rest =>
    have hfacts : ∀ s ∈ x :: rest, '/' ∉ s := by
      intro s hs
      exact (mem_cleanedSegs l s (by rw [hC]; exact hs)).2.2
    have hsplit : pySplitOn '/' (joinWith ['/'] (x :: rest)) = x :: rest :=
      pySplitOn_joinWith '/' (x :: rest) (by simp) hfacts
    rw [normalizePathL_of_cleaned_cons l x rest hC] at hseg
    by_cases hcond : l.getLast? = some '/'
    · simp only [hcond, if_true, ite_true] at hseg
      rw [pySplitOn_append_last_sep, hsplit] at hseg
      rcases List.mem_append.mp hseg with h | h
      · exact (mem_cleanedSegs l seg (by rw [hC]; exact h)).2.1
      · simp at h
        simp [h]
    · simp only [hcond, ite_false] at hseg
      rw [hsplit] at hseg
      exact (mem_cleanedSegs l seg (by rw [hC]; exact hseg)).2.1

/-- The output of `_normalize_path` ends in a slash exactly when the input
did and the output is nonempty. -/

theorem normalizePathL_trailing (l : List Char) :
    ((normalizePathL l).getLast? = some '/') ↔
      (l.getLast? = some '/' ∧ normalizePathL l ≠ []) := by
  cases hC : (pySplitOn '/' l).filter keepSeg with
  | nil =>
    rw [normalizePathL_of_cleaned_nil l hC]
    simp
  | cons x rest =>
    have hsegs : ∀ seg ∈ x :: rest, seg ≠ [] ∧ '/' ∉ seg := by
      intro seg hs
      have h := mem_cleanedSegs l seg (by rw [hC]; exact hs)
      exact ⟨h.1, h.2.2⟩
    have hx : x ≠ [] := (hsegs x (List.mem_cons_self _ _)).1
    have hJ : joinWith ['/'] (x :: rest) ≠ [] := joinWith_ne_nil '/' x rest hx
    rw [normalizePathL_of_cleaned_cons l x rest hC]
    by_cases hcond : l.getLast? = some '/'
    · simp only [hcond, if_true, ite_true]
      rw [getLast?_append_right _ _ (by simp)]
      simp
    · simp only [hcond, ite_false]
      obtain ⟨c, hc1, hc2⟩ := getLast?_joinWith '/' (x :: rest) (by simp) hsegs
      rw [hc1]
      simp [hcond, hc2]

/-- `_normalize_path` is idempotent. -/

theorem normalizePathL_idem (l : List Char) :
    normalizePathL (normalizePathL l) = normalizePathL l := by
  cases hC : (pySplitOn '/' l).filter keepSeg with
  | nil =>
    rw [normalizePathL_of_cleaned_nil l hC]
    exact normalizePathL_nil
  | cons x rest =>
    have hsegs : ∀ seg ∈ x :: rest, seg ≠ [] ∧ '/' ∉ seg := by
      intro seg hs
      have h := mem_cleanedSegs l seg (by rw [hC]; exact hs)
      exact ⟨h.1, h.2.2⟩
    have hC2 : (pySplitOn '/' (normalizePathL l)).filter keepSeg = x :: rest := by
      rw [filter_pySplitOn_normalizePathL, hC]
    rw [normalizePathL_of_cleaned_cons (normalizePathL l) x rest hC2]
    by_cases hcond : l.getLast? = some '/'
    · have h1 : normalizePathL l = joinWith ['/'] (x :: rest) ++ ['/'] := by
        rw [normalizePathL_of_cleaned_cons l x rest hC]
        simp [hcond]
      have h2 : (normalizePathL l).getLast? = some '/' := by
        rw [h1, getLast?_append_right _ _ (by simp)]
        rfl
      rw [if_pos h2, h1]
    · have h1 : normalizePathL l = joinWith ['/'] (x :: rest) := by
        rw [normalizePathL_of_cleaned_cons l x rest hC]
        simp [hcond]
      obtain ⟨c, hc1, hc2⟩ := getLast?_joinWith '/' (x :: rest) (by simp) hsegs
      have h2 : ¬ (normalizePathL l).getLast? = some '/' := by
        rw [h1, hc1]
        simp [hc2]
      rw [if_neg h2, h1]

/-- C7: for every slash-separated input string `p`, `normalize_path`
removes all `.`-only segments (and changes no other non-trivial segment:
the cleaned segment lists of input and output agree), preserves a trailing
slash exactly when the input had one and the result is non-empty, and is
idempotent; in particular
`normalize_path "No-Intro/./Sony/./game.zip" = "No-Intro/Sony/game.zip"`. -/

theorem C7_normalize_path_correct :
    (∀ p : String,
      (pySplitOn '/' (normalize_path p).data).filter keepSeg =
        (pySplitOn '/' p.data).filter keepSeg
      ∧ (∀ seg ∈ pySplitOn '/' (normalize_path p).data, seg ≠ ['.'])
      ∧ (((normalize_path p).data.getLast? = some '/') ↔
          (p.data.getLast? = some '/' ∧ normalize_path p ≠ ""))
      ∧ normalize_path (normalize_path p) = normalize_path p)
    ∧ normalize_path "No-Intro/./Sony/./game.zip" = "No-Intro/Sony/game.zip" := by
  constructor
  · intro p
    refine ⟨filter_pySplitOn_normalizePathL p.data,
            not_dot_pySplitOn_normalizePathL p.data, ?_, ?_⟩
    · have h := normalizePathL_trailing p.data
      simpa [normalize_path, String.ext_iff] using h
    · show String.mk (normalizePathL (normalizePathL p.data)) = _
      rw [normalizePathL_idem]
      rfl
  · rfl

/-- Witness for C7: the universal statement applied at concrete inputs,
discharging its embedded hypotheses. -/

theorem C7_normalize_path_correct_witness :
    normalize_path (normalize_path "a/./b/") = normalize_path "a/./b/"
    ∧ ¬ (['.'] ∈ pySplitOn '/' (normalize_path "x/./y").data) :=
  ⟨(C7_normalize_path_correct.1 "a/./b/").2.2.2,
   fun h => (C7_normalize_path_correct.1 "x/./y").2.1 ['.'] h rfl⟩

/-! ### Facts about `pyStrip` for claim C8 -/

theorem dropWhile_eq_self_of_none {p : Char → Bool} {l : List Char}
    (h : ∀ c ∈ l, p c = false) : l.dropWhile p = l := by
  cases l with
  | nil => rfl
  | cons c cs =>
    rw [List.dropWhile_cons, h c (List.mem_cons_self _ _)]
    simp

theorem pyStripWith_of_none {p : Char → Bool} {l : List Char}
    (h : ∀ c ∈ l, p c = false) : pyStripWith p l = l := by
  unfold pyStripWith
  rw [dropWhile_eq_self_of_none h,
      dropWhile_eq_self_of_none (fun c hc => h c (List.mem_reverse.mp hc)),
      List.reverse_reverse]

theorem pyStrip_eq_self {s : String} (h : ∀ c ∈ s.data, pyIsSpace c = false) :
    pyStrip s = s := by
  unfold pyStrip
  rw [pyStripWith_of_none h]

theorem pyStrip_of_all_space {s : String} (h : ∀ c ∈ s.data, pyIsSpace c = true) :
    (pyStrip s).data = [] := by
  unfold pyStrip pyStripWith
  have h1 : s.data.dropWhile pyIsSpace = [] := List.dropWhile_eq_nil_iff.mpr h
  rw [h1]
  rfl

theorem isDigit_not_pySpace (c : Char) (h : c.isDigit = true) :
    pyIsSpace c = false := by
  simp only [pyIsSpace, Bool.or_eq_false_iff, decide_eq_false_iff_not]
  refine ⟨⟨⟨⟨⟨?_, ?_⟩, ?_⟩, ?_⟩, ?_⟩, ?_⟩ <;> rintro rfl <;> exact absurd h (by decide)

theorem isIsoT_no_space (s : String) (h : isIsoT s = true) :
    ∀ c ∈ s.data, pyIsSpace c = false := by
  simp only [isIsoT, Bool.and_eq_true, decide_eq_true_eq, List.all_eq_true] at h
  obtain ⟨hlen, hall⟩ := h
  intro c hc
  obtain ⟨i, hi, hgi⟩ := List.getElem_of_mem hc
  have hi19 : i < 19 := hlen ▸ hi
  have hfact := hall i (List.mem_range.mpr hi19)
  simp only [List.getD_eq_getElem?_getD, List.getElem?_eq_getElem hi, Option.getD_some,
    hgi] at hfact
  split at hfact
  · exact (decide_eq_true_eq.mp hfact) ▸ (by decide)
  · split at hfact
    · exact (decide_eq_true_eq.mp hfact) ▸ (by decide)
    · split at hfact
      · exact (decide_eq_true_eq.mp hfact) ▸ (by decide)
      · exact isDigit_not_pySpace c hfact

theorem isIsoT_mem_T (s : String) (h : isIsoT s = true) : 'T' ∈ s.data := by
  simp only [isIsoT, Bool.and_eq_true, decide_eq_true_eq, List.all_eq_true] at h
  obtain ⟨hlen, hall⟩ := h
  have h10 : (10 : Nat) < s.data.length := by omega
  have hfact := hall 10 (by decide)
  simp only [List.getD_eq_getElem?_getD, List.getElem?_eq_getElem h10,
    Option.getD_some] at hfact
  have : s.data[10] = 'T' := by
    simpa using hfact
  exact this ▸ List.getElem_mem h10

/-- C8 counterexample: the claim says every input of unrecognized format is
returned unchanged, but `normalize_myrient_date` strips surrounding
whitespace first and returns the stripped string: on input `" foo "` it
returns `"foo"`, which differs from the input. -/

theorem C8_normalize_date_counterexample :
    normalize_myrient_date (some " foo ") = some "foo"
    ∧ (some "foo" : Option String) ≠ some " foo " := by
  refine ⟨by decide, by decide⟩

/-- C8 (amended): `normalize_myrient_date` maps `"2024-01-15 10:30"` to
`"2024-01-15T10:30:00"` and `"18-Feb-2025 10:57"` to
`"2025-02-18T10:57:00"`, returns already-ISO inputs unchanged, returns
`None` for absent and for whitespace-only input, and returns every input
of unrecognized format stripped of surrounding whitespace but otherwise
unchanged. -/

theorem C8_normalize_date_amended :
    normalize_myrient_date (some "2024-01-15 10:30") = some "2024-01-15T10:30:00"
    ∧ normalize_myrient_date (some "18-Feb-2025 10:57") = some "2025-02-18T10:57:00"
    ∧ (∀ s : String, isIsoT s = true → normalize_myrient_date (some s) = some s)
    ∧ normalize_myrient_date none = none
    ∧ (∀ s : String, (∀ c ∈ s.data, pyIsSpace c = true) →
        normalize_myrient_date (some s) = none)
    ∧ (∀ s : String,
        (pyStrip s).data ≠ [] →
        'T' ∉ (pyStrip s).data →
        matchDateFmt1 (pyStrip s).data = none →
        matchDateFmt2 (pyStrip s).data = none →
        normalize_myrient_date (some s) = some (pyStrip s)) := by
  refine ⟨by decide, by decide, ?_, rfl, ?_, ?_⟩
  · intro s h
    have hstrip : pyStrip s = s := pyStrip_eq_self (isIsoT_no_space s h)
    have hT : 'T' ∈ s.data := isIsoT_mem_T s h
    have hne : s.data.isEmpty = false := by
      cases hd : s.data with
      | nil => rw [hd] at hT; cases hT
      | cons c cs => rfl
    simp only [normalize_myrient_date, hstrip, hne, Bool.false_eq_true,
      if_false, ite_false, hT, if_true, ite_true]
  · intro s h
    have hempty : (pyStrip s).data = [] := pyStrip_of_all_space h
    simp only [normalize_myrient_date, hempty, List.isEmpty_nil, if_true, ite_true]
  · intro s hne hT h1 h2
    have hempty : (pyStrip s).data.isEmpty = false := by
      cases hd : (pyStrip s).data with
      | nil => exact absurd hd hne
      | cons c cs => rfl
    simp only [normalize_myrient_date, hempty, Bool.false_eq_true, if_false,
      ite_false, hT, h1, h2]

/-- Witness for C8: the amended theorem applied at concrete inputs. -/

theorem C8_normalize_date_amended_witness :
    normalize_myrient_date (some "2025-02-18T10:57:00") = some "2025-02-18T10:57:00"
    ∧ normalize_myrient_date (some "   ") = none
    ∧ normalize_myrient_date (some " foo ") = some (pyStrip " foo ") :=
  ⟨C8_normalize_date_amended.2.2.1 _ (by decide),
   C8_normalize_date_amended.2.2.2.2.1 "   " (by decide),
   C8_normalize_date_amended.2.2.2.2.2 " foo " (by decide) (by decide)
     (by decide) (by decide)⟩

theorem char_eq_of_toNat_eq {a b : Char} (h : a.toNat = b.toNat) : a = b :=
  Char.ext (UInt32.ext h)

theorem cmpChars_eq_iff (a b : List Char) : cmpChars a b = .eq ↔ a = b := by
  induction a generalizing b with
  | nil => cases b <;> simp [cmpChars]
  | cons c cs ih =>
    cases b with
    | nil => simp [cmpChars]
    | cons d ds =>
      simp only [cmpChars]
      by_cases h1 : c.toNat < d.toNat
      · have hne : c ≠ d := fun he => by subst he; omega
        simp [h1, hne]
      · by_cases h2 : d.toNat < c.toNat
        · have hne : c ≠ d := fun he => by subst he; omega
          simp [h1, h2, hne]
        · have hcd : c = d := char_eq_of_toNat_eq (by omega)
          simp [h1, h2, ih, hcd]

theorem cmpChars_swap (a b : List Char) : (cmpChars a b).swap = cmpChars b a := by
  induction a generalizing b with
  | nil => cases b <;> simp [cmpChars, Ordering.swap]
  | cons c cs ih =>
    cases b with
    | nil => simp [cmpChars, Ordering.swap]
    | cons d ds =>
      simp only [cmpChars]
      by_cases h1 : c.toNat < d.toNat
      · have h2 : ¬ d.toNat < c.toNat := by omega
        simp [h1, h2, Ordering.swap]
      · by_cases h2 : d.toNat < c.toNat
        · simp [h1, h2, Ordering.swap]
        · simp [h1, h2, ih]

theorem cmpChars_lt_trans {a b c : List Char}
    (h1 : cmpChars a b = .lt) (h2 : cmpChars b c = .lt) : cmpChars a c = .lt := by
  induction a generalizing b c with
  | nil =>
    cases b with
    | nil => cases h1
    | cons d ds =>
      cases c with
      | nil => cases h2
      | cons e es => simp [cmpChars]
  | cons x xs ih =>
    cases b with
    | nil => cases h1
    | cons d ds =>
      cases c with
      | nil => cases h2
      | cons e es =>
        simp only [cmpChars] at h1 h2 ⊢
        by_cases hxd : x.toNat < d.toNat
        · by_cases hde : d.toNat < e.toNat
          · simp [show x.toNat < e.toNat by omega]
          · by_cases hed : e.toNat < d.toNat
            · simp [hde, hed] at h2
            · have : d = e := char_eq_of_toNat_eq (by omega)
              subst this
              simp [hxd]
        · by_cases hdx : d.toNat < x.toNat
          · simp [hxd, hdx] at h1
          · have : x = d := char_eq_of_toNat_eq (by omega)
            subst this
            simp only [lt_irrefl, if_false, ite_false] at h1 ⊢
            by_cases hde : x.toNat < e.toNat
            · simp [hde]
            · by_cases hed : e.toNat < x.toNat
              · simp [hde, hed] at h2
              · have : x = e := char_eq_of_toNat_eq (by omega)
                subst this
                simp only [lt_irrefl, if_false, ite_false] at h2 ⊢
                exact ih h1 h2

theorem isCmp_cmpStr : IsCmp cmpStr := by
  refine ⟨fun a b => cmpChars_swap a.data b.data, fun a b => ?_,
    fun h1 h2 => cmpChars_lt_trans h1 h2⟩
  rw [cmpStr, cmpChars_eq_iff]
  constructor
  · intro h
    cases a
    cases b
    simp_all
  · intro h
    rw [h]

theorem isCmp_cmpLex {α β : Type} {ca : α → α → Ordering}
    {cb : β → β → Ordering} (ha : IsCmp ca) (hb : IsCmp cb) :
    IsCmp (cmpLex ca cb) := by
  constructor
  · intro a b
    simp only [cmpLex]
    rcases e : ca a.1 b.1 with _ | _ | _
    · have e2 : ca b.1 a.1 = .gt := by rw [← ha.swap_eq, e]; rfl
      rw [e2]
      rfl
    · have e2 : ca b.1 a.1 = .eq := by rw [← ha.swap_eq, e]; rfl
      rw [e2]
      exact hb.swap_eq a.2 b.2
    · have e2 : ca b.1 a.1 = .lt := by rw [← ha.swap_eq, e]; rfl
      rw [e2]
      rfl
  · intro a b
    simp only [cmpLex]
    rcases e : ca a.1 b.1 with _ | _ | _
    · constructor
      · intro h; cases h
      · intro h
        rw [h, (ha.eq_iff b.1 b.1).mpr rfl] at e
        cases e
    · have h1 : a.1 = b.1 := (ha.eq_iff a.1 b.1).mp e
      rw [hb.eq_iff]
      constructor
      · intro h2
        exact Prod.ext h1 h2
      · intro h
        rw [h]
    · constructor
      · intro h; cases h
      · intro h
        rw [h, (ha.eq_iff b.1 b.1).mpr rfl] at e
        cases e
  · intro a b d h1 h2
    simp only [cmpLex] at h1 h2 ⊢
    rcases e1 : ca a.1 b.1 with _ | _ | _ <;> rw [e1] at h1 <;>
      rcases e2 : ca b.1 d.1 with _ | _ | _ <;> rw [e2] at h2
    · rw [ha.lt_trans e1 e2]
    · rw [(ha.eq_iff b.1 d.1).mp e2] at e1
      rw [e1]
    · cases h2
    · rw [(ha.eq_iff a.1 b.1).mp e1, e2]
    · rw [(ha.eq_iff a.1 b.1).mp e1, e2]
      exact hb.lt_trans h1 h2
    · cases h2
    · cases h1
    · cases h1
    · cases h1

theorem isCmp_cmpTriple : IsCmp cmpTriple :=
  isCmp_cmpLex isCmp_cmpStr (isCmp_cmpLex isCmp_cmpStr isCmp_cmpStr)

instance : IsTotal (String × String × String) tripleLe := by
  constructor
  intro x y
  by_cases h : cmpTriple x y = .gt
  · right
    intro h2
    have hs := isCmp_cmpTriple.swap_eq x y
    rw [h, h2] at hs
    cases hs
  · left; exact h

instance : IsTrans (String × String × String) tripleLe := by
  constructor
  intro x y z h1 h2
  rcases e1 : cmpTriple x y with _ | _ | _
  · rcases e2 : cmpTriple y z with _ | _ | _
    · intro h
      rw [isCmp_cmpTriple.lt_trans e1 e2] at h
      cases h
    · have he := (isCmp_cmpTriple.eq_iff y z).mp e2
      subst he
      intro h
      rw [e1] at h
      cases h
    · exact absurd e2 h2
  · have he := (isCmp_cmpTriple.eq_iff x y).mp e1
    subst he
    exact h2
  · exact absurd e1 h1

instance : IsAntisymm (String × String × String) tripleLe := by
  constructor
  intro x y h1 h2
  rcases e1 : cmpTriple x y with _ | _ | _
  · have hs := isCmp_cmpTriple.swap_eq x y
    rw [e1] at hs
    exact absurd hs.symm h2
  · exact (isCmp_cmpTriple.eq_iff x y).mp e1
  · exact absurd e1 h1

theorem pySortTriples_perm_invariant
    {l1 l2 : List (String × String × String)} (h : l1.Perm l2) :
    pySortTriples l1 = pySortTriples l2 :=
  List.eq_of_perm_of_sorted
    ((List.perm_insertionSort _ l1).trans (h.trans (List.perm_insertionSort _ l2).symm))
    (List.sorted_insertionSort _ l1) (List.sorted_insertionSort _ l2)

/-- C6: `compute_content_hash` is invariant under any permutation of its
input rows, and on the spec's fixture rows the fingerprint of
`[(A,1,d1),(B,2,d2)]` equals that of `[(B,2,d2),(A,1,d1)]` and differs
from that of `[(A,1,d1),(C,3,d3)]` as well as from the fingerprints
obtained by changing one row's name, size, or date. -/

theorem C6_content_fingerprint_properties :
    (∀ l1 l2 : List RawEntry, l1.Perm l2 →
      compute_content_hash l1 = compute_content_hash l2)
    ∧ compute_content_hash [rowA, rowB] = compute_content_hash [rowB, rowA]
    ∧ compute_content_hash [rowA, rowB] ≠ compute_content_hash [rowA, rowC]
    ∧ compute_content_hash [rowA, rowB] ≠ compute_content_hash [rowA, rowBname]
    ∧ compute_content_hash [rowA, rowB] ≠ compute_content_hash [rowA, rowBsize]
    ∧ compute_content_hash [rowA, rowB] ≠ compute_content_hash [rowA, rowBdate] := by
  refine ⟨?_, by decide, by decide, by decide, by decide, by decide⟩
  intro l1 l2 h
  have hs : pySortTriples (l1.map rawTriple) = pySortTriples (l2.map rawTriple) :=
    pySortTriples_perm_invariant (h.map rawTriple)
  simp only [compute_content_hash, hs]

/-- Witness for C6: the permutation-invariance part applied at a concrete
permutation. -/

theorem C6_content_fingerprint_properties_witness :
    compute_content_hash [rowA, rowC, rowB] = compute_content_hash [rowC, rowB, rowA] :=
  C6_content_fingerprint_properties.1 _ _ (by decide)

/-- C4: `build_entry` computes `parent_path` with
`full_path.rsplit("/", 2)[0] + "/"`.  For a directory path (which ends in
`/`) the two right splits remove the empty final segment and the name, so
the result is the containing directory; but for a *file* at depth ≥ 3 the
two splits remove the file name *and* the containing directory, yielding
the grandparent.  At the failing input — a file `game.zip` inside
`No-Intro/Sony - PlayStation/` — the produced record has
`path = "No-Intro/Sony - PlayStation/game.zip"` but
`parent_path = "No-Intro/"`, which is not the normalized path of the
containing directory `"No-Intro/Sony - PlayStation/"` (for every category
table).  This contradicts the claim, the spec's data-model invariant, and
the purpose `parent_path` serves in `Database.browse` and
`Database.remove_missing_entries`. -/

theorem C4_parent_path_wrong_for_deep_files :
    ∀ flatCats : List (String × String),
      (build_entry flatCats "game.zip" "game.zip" false (some "100 KB") none
        "No-Intro/Sony - PlayStation/").path
          = "No-Intro/Sony - PlayStation/game.zip"
      ∧ (build_entry flatCats "game.zip" "game.zip" false (some "100 KB") none
        "No-Intro/Sony - PlayStation/").parent_path = "No-Intro/"
      ∧ ("No-Intro/" : String) ≠ "No-Intro/Sony - PlayStation/" := by
  intro flatCats
  exact ⟨rfl, rfl, by decide⟩

/-! ### Per-directory step lemmas (claims C1, C3, C10) -/

/-- The row loop collects the same names and the same subdirectories
whether or not DB writes are skipped (only the built entries differ). -/

theorem collectRowsGo_skip_indep (fc : List (String × String)) (p : String) :
    ∀ (raw : List RawEntry) (a1 a2 : RowAcc),
      a1.names = a2.names → a1.subdirs = a2.subdirs →
      (collectRowsGo fc true p raw a1).names =
        (collectRowsGo fc false p raw a2).names
      ∧ (collectRowsGo fc true p raw a1).subdirs =
        (collectRowsGo fc false p raw a2).subdirs := by
  intro raw
  induction raw with
  | nil => intro a1 a2 h1 h2; exact ⟨h1, h2⟩
  | cons r rest ih =>
    intro a1 a2 h1 h2
    simp only [collectRowsGo]
    by_cases hdot : (r.name = "." || r.name = "./") = true
    · rw [if_pos hdot, if_pos hdot]
      exact ih a1 a2 h1 h2
    · rw [if_neg hdot, if_neg hdot]
      by_cases hdir : r.is_directory = true
      · by_cases hsafe :
          (strContainsSub "/."
              (normalize_path (if p ≠ "" then p ++ r.name ++ "/" else r.name ++ "/")) ||
            strStartsWith "."
              (normalize_path (if p ≠ "" then p ++ r.name ++ "/" else r.name ++ "/"))) = true
        · rw [if_pos hdir, if_pos hdir, if_pos hsafe, if_pos hsafe]
          exact ih _ _ (by simp [h1]) (by simp [h2])
        · rw [if_pos hdir, if_pos hdir, if_neg hsafe, if_neg hsafe]
          exact ih _ _ (by simp [h1]) (by simp [h2])
      · rw [if_neg hdir, if_neg hdir]
        exact ih _ _ (by simp [h1]) (by simp [h2])

theorem collectRows_skip_indep (fc : List (String × String)) (p : String)
    (raw : List RawEntry) :
    (collectRows fc true p raw).names = (collectRows fc false p raw).names
    ∧ (collectRows fc true p raw).subdirs = (collectRows fc false p raw).subdirs :=
  collectRowsGo_skip_indep fc p raw ⟨[], [], []⟩ ⟨[], [], []⟩ rfl rfl

/-- When the stored fingerprint matches the fresh one in incremental
mode, the per-directory step performs no writes and leaves the state
untouched, returning only the subdirectory list. -/

theorem processDir_skip (fc : List (String × String)) (p : String)
    (fr : FetchResult) (s : CState)
    (h : skipFlag true s.syncMeta p fr.raw = true) :
    processDir fc true p fr s = ((collectRows fc true p fr.raw).subdirs, s) := by
  simp only [processDir, h, if_true, ite_true]

/-- When the fingerprint check does not indicate a skip, the step appends
to the trace: an optional batch flush (of the previously buffered entries
plus this directory's, only when the shared buffer reached `BATCH_SIZE`),
then the fingerprint write, then (incrementally) the prune — so the
fingerprint write follows the *buffering* of the directory's entries, not
their persistence; entries beyond the flushed prefix stay in the buffer. -/

theorem processDir_noskip (fc : List (String × String)) (incr : Bool)
    (p : String) (fr : FetchResult) (s : CState)
    (h : skipFlag incr s.syncMeta p fr.raw = false) :
    processDir fc incr p fr s =
      ((collectRows fc false p fr.raw).subdirs,
       ⟨updateSyncMeta s.syncMeta p (some (compute_content_hash fr.raw)),
        (if BATCH_SIZE ≤ (s.buffer ++ (collectRows fc false p fr.raw).entries).length
         then (s.buffer ++ (collectRows fc false p fr.raw).entries).drop BATCH_SIZE
         else s.buffer ++ (collectRows fc false p fr.raw).entries),
        s.trace ++
          (if BATCH_SIZE ≤ (s.buffer ++ (collectRows fc false p fr.raw).entries).length
           then [Ev.insertBatch
              ((s.buffer ++ (collectRows fc false p fr.raw).entries).take BATCH_SIZE)]
           else []) ++
          [Ev.upsertSyncMeta p fr.etag fr.lastModified fr.raw.length
            (compute_content_hash fr.raw)] ++
          (if incr then [Ev.removeMissing p (collectRows fc false p fr.raw).names]
           else [])⟩) := by
  by_cases hb : BATCH_SIZE ≤ (s.buffer ++ (collectRows fc false p fr.raw).entries).length
  all_goals cases incr
  all_goals simp only [List.length_append] at hb
  all_goals simp [processDir, h, hb, List.append_assoc]

/-- After the whole crawl (final `_flush_buffer` included) no entry is
left unpersisted in the buffer. -/

theorem crawl_buffer_empty (fc : List (String × String))
    (fetch : String → Option FetchResult) (incr : Bool) (fuel : Nat)
    (meta0 : List (String × Option String)) :
    (crawl fc fetch incr fuel meta0).buffer = [] := by
  unfold crawl flushBuffer
  by_cases h : (crawlDir fc fetch incr fuel "" ⟨meta0, [], []⟩).buffer.isEmpty = true
  · simp only [h, if_true, ite_true]
    exact List.isEmpty_iff.mp h
  · simp only [h, Bool.false_eq_true, if_false, ite_false]

/-- Unfolding of `_crawl_directory` on a successful fetch: the visit is
recorded, the directory is processed, and the crawler recurses into every
returned subdirectory — regardless of whether the step skipped its DB
writes. -/

theorem crawlDir_fetch_some (fc : List (String × String))
    (fetch : String → Option FetchResult) (incr : Bool) (f : Nat)
    (p : String) (s : CState) (fr : FetchResult)
    (h : fetch (normalize_path p) = some fr) :
    crawlDir fc fetch incr (f + 1) p s =
      (processDir fc incr (normalize_path p) fr
        {s with trace := s.trace ++ [Ev.visit (normalize_path p)]}).1.foldl
        (fun st sub => crawlDir fc fetch incr f sub st)
        (processDir fc incr (normalize_path p) fr
          {s with trace := s.trace ++ [Ev.visit (normalize_path p)]}).2 := by
  simp only [crawlDir, h]

/-- C1 counterexample: in an incremental crawl whose stored fingerprint
for the root equals the freshly computed one, the crawler performs no
writes for the root — but it still recurses into the root's child `A/`
(the child is fetched, visited and written), contradicting the claim
that a directory with a matching fingerprint has its children never
enumerated in that run. -/

theorem C1_skip_still_recurses_counterexample :
    lookupSyncMeta c1Meta "" = some (some (compute_content_hash c1Root))
    ∧ (crawl [] c1Fetch true 3 c1Meta).trace =
        [Ev.visit "", Ev.visit "A/",
         Ev.upsertSyncMeta "A/" none none 1 (compute_content_hash c1Child),
         Ev.removeMissing "A/" ["f.zip"],
         Ev.insertBatch [c1Entry]]
    ∧ Ev.visit "A/" ∈ (crawl [] c1Fetch true 3 c1Meta).trace :=
  ⟨by decide, by decide, by decide⟩

/-- C1 (amended): if the stored fingerprint for a directory equals the
freshly computed one in an incremental crawl, no entry writes, no
fingerprint write, no pruning and no buffering occur for that path — the
state is returned untouched — but the crawler still enumerates the
directory's rows, returns exactly the subdirectory list of non-skip
processing, and recurses into those children. -/

theorem C1_incremental_skip_amended :
    (∀ (fc : List (String × String)) (p : String) (fr : FetchResult) (s : CState),
      skipFlag true s.syncMeta p fr.raw = true →
      processDir fc true p fr s = ((collectRows fc true p fr.raw).subdirs, s))
    ∧ (∀ (fc : List (String × String)) (incr : Bool) (p : String)
        (fr : FetchResult) (s : CState),
        (processDir fc incr p fr s).1 = (collectRows fc false p fr.raw).subdirs)
    ∧ (∀ (fc : List (String × String)) (fetch : String → Option FetchResult)
        (incr : Bool) (f : Nat) (p : String) (s : CState) (fr : FetchResult),
        fetch (normalize_path p) = some fr →
        crawlDir fc fetch incr (f + 1) p s =
          (processDir fc incr (normalize_path p) fr
            {s with trace := s.trace ++ [Ev.visit (normalize_path p)]}).1.foldl
            (fun st sub => crawlDir fc fetch incr f sub st)
            (processDir fc incr (normalize_path p) fr
              {s with trace := s.trace ++ [Ev.visit (normalize_path p)]}).2) := by
  refine ⟨processDir_skip, ?_, crawlDir_fetch_some⟩
  intro fc incr p fr s
  by_cases hs : skipFlag incr s.syncMeta p fr.raw = true
  · simp only [processDir, hs, if_true, ite_true]
    exact (collectRows_skip_indep fc p fr.raw).2
  · have hs2 : skipFlag incr s.syncMeta p fr.raw = false := by
      cases hsf : skipFlag incr s.syncMeta p fr.raw
      · rfl
      · exact absurd hsf hs
    simp only [processDir, hs2, Bool.false_eq_true, if_false, ite_false]

/-- Witness for C1: the amended statement applied to the concrete
fingerprint-matched root of the counterexample run. -/

theorem C1_incremental_skip_amended_witness :
    processDir [] true "" ⟨c1Root, none, none⟩ ⟨c1Meta, [], []⟩ =
      ((collectRows [] true "" c1Root).subdirs, ⟨c1Meta, [], []⟩)
    ∧ crawlDir [] c1Fetch true 1 "" ⟨c1Meta, [], []⟩ =
      (processDir [] true "" ⟨c1Root, none, none⟩
        ⟨c1Meta, [], [Ev.visit ""]⟩).1.foldl
        (fun st sub => crawlDir [] c1Fetch true 0 sub st)
        (processDir [] true "" ⟨c1Root, none, none⟩ ⟨c1Meta, [], [Ev.visit ""]⟩).2 :=
  ⟨C1_incremental_skip_amended.1 [] "" ⟨c1Root, none, none⟩ ⟨c1Meta, [], []⟩ (by decide),
   C1_incremental_skip_amended.2.2 [] c1Fetch true 0 "" ⟨c1Meta, [], []⟩
     ⟨c1Root, none, none⟩ (by decide)⟩

/-- C3 counterexample: for a directory with fewer than `BATCH_SIZE`
entries, the crawler writes the fingerprint (trace index 1) while the
directory's entry is still sitting in the in-memory buffer; the entry is
only persisted by the final flush (trace index 2).  The fingerprint write
therefore precedes the commit of the corresponding entry writes,
contradicting the claim. -/

theorem C3_fingerprint_before_entries_counterexample :
    (crawl [] c3Fetch false 1 []).trace =
      [Ev.visit "",
       Ev.upsertSyncMeta "" none none 1 (compute_content_hash c3Raw),
       Ev.insertBatch [c3Entry]]
    ∧ (crawl [] c3Fetch false 1 []).trace.get? 1 =
        some (Ev.upsertSyncMeta "" none none 1 (compute_content_hash c3Raw))
    ∧ (crawl [] c3Fetch false 1 []).trace.get? 2 =
        some (Ev.insertBatch [c3Entry]) :=
  ⟨by decide, by decide, by decide⟩

/-- C3 (amended): within one directory's processing the fingerprint check
does come first — when it indicates a skip, nothing at all is written —
and in non-skip mode the step appends, in order: an optional batch flush
(only when the shared buffer reached `BATCH_SIZE`, and containing only
previously buffered entries plus this directory's), then the fingerprint
write, then the incremental prune.  The fingerprint write thus follows
the *buffering* of the directory's entries but may precede their
persistence, which happens at a later batch flush or at the final
end-of-crawl flush (after which the buffer is empty). -/

theorem C3_fingerprint_write_order_amended :
    (∀ (fc : List (String × String)) (p : String) (fr : FetchResult) (s : CState),
      skipFlag true s.syncMeta p fr.raw = true →
      processDir fc true p fr s = ((collectRows fc true p fr.raw).subdirs, s))
    ∧ (∀ (fc : List (String × String)) (incr : Bool) (p : String)
        (fr : FetchResult) (s : CState),
        skipFlag incr s.syncMeta p fr.raw = false →
        processDir fc incr p fr s =
          ((collectRows fc false p fr.raw).subdirs,
           ⟨updateSyncMeta s.syncMeta p (some (compute_content_hash fr.raw)),
            (if BATCH_SIZE ≤ (s.buffer ++ (collectRows fc false p fr.raw).entries).length
             then (s.buffer ++ (collectRows fc false p fr.raw).entries).drop BATCH_SIZE
             else s.buffer ++ (collectRows fc false p fr.raw).entries),
            s.trace ++
              (if BATCH_SIZE ≤ (s.buffer ++ (collectRows fc false p fr.raw).entries).length
               then [Ev.insertBatch
                  ((s.buffer ++ (collectRows fc false p fr.raw).entries).take BATCH_SIZE)]
               else []) ++
              [Ev.upsertSyncMeta p fr.etag fr.lastModified fr.raw.length
                (compute_content_hash fr.raw)] ++
              (if incr then [Ev.removeMissing p (collectRows fc false p fr.raw).names]
               else [])⟩))
    ∧ (∀ (fc : List (String × String)) (fetch : String → Option FetchResult)
        (incr : Bool) (fuel : Nat) (meta0 : List (String × Option String)),
        (crawl fc fetch incr fuel meta0).buffer = []) :=
  ⟨processDir_skip, processDir_noskip, crawl_buffer_empty⟩

/-- Witness for C3: the amended statement applied at concrete inputs. -/

theorem C3_fingerprint_write_order_amended_witness :
    processDir [] true "" ⟨c1Root, none, none⟩ ⟨c1Meta, [], []⟩ =
      ((collectRows [] true "" c1Root).subdirs, ⟨c1Meta, [], []⟩)
    ∧ processDir [] false "" ⟨c3Raw, none, none⟩ ⟨[], [], []⟩ =
      ((collectRows [] false "" c3Raw).subdirs,
       ⟨updateSyncMeta [] "" (some (compute_content_hash c3Raw)),
        (if BATCH_SIZE ≤ (([] : List Entry) ++ (collectRows [] false "" c3Raw).entries).length
         then (([] : List Entry) ++ (collectRows [] false "" c3Raw).entries).drop BATCH_SIZE
         else ([] : List Entry) ++ (collectRows [] false "" c3Raw).entries),
        ([] : List Ev) ++
          (if BATCH_SIZE ≤ (([] : List Entry) ++ (collectRows [] false "" c3Raw).entries).length
           then [Ev.insertBatch
              ((([] : List Entry) ++ (collectRows [] false "" c3Raw).entries).take BATCH_SIZE)]
           else []) ++
          [Ev.upsertSyncMeta "" none none 1 (compute_content_hash c3Raw)] ++
          (if false then [Ev.removeMissing "" (collectRows [] false "" c3Raw).names]
           else [])⟩) :=
  ⟨C3_fingerprint_write_order_amended.1 [] "" ⟨c1Root, none, none⟩
     ⟨c1Meta, [], []⟩ (by decide),
   C3_fingerprint_write_order_amended.2.1 [] false "" ⟨c3Raw, none, none⟩
     ⟨[], [], []⟩ (by decide)⟩

/-! ### Claim C10: the fingerprint depends only on (name, size, date) -/

/-- C10: `compute_content_hash` factors through the rows'
`(name, size or "", date or "")` triples: any two row lists that agree on
those triples — however they differ in `href`, `is_directory`, or in a
size/date of `None` versus `""` — get the same digest; consequently, in
incremental mode a directory whose stored fingerprint was computed from
rows with the same triples is skipped as unchanged (no writes, state
untouched). -/

theorem C10_fingerprint_only_triples :
    (∀ l1 l2 : List RawEntry, l1.map rawTriple = l2.map rawTriple →
      compute_content_hash l1 = compute_content_hash l2)
    ∧ (∀ (fc : List (String × String)) (p : String) (fr fr' : FetchResult)
        (s : CState),
        fr.raw.map rawTriple = fr'.raw.map rawTriple →
        lookupSyncMeta s.syncMeta p = some (some (compute_content_hash fr.raw)) →
        processDir fc true p fr' s =
          ((collectRows fc true p fr'.raw).subdirs, s)) := by
  have hhash : ∀ l1 l2 : List RawEntry, l1.map rawTriple = l2.map rawTriple →
      compute_content_hash l1 = compute_content_hash l2 := by
    intro l1 l2 h
    simp only [compute_content_hash, h]
  refine ⟨hhash, ?_⟩
  intro fc p fr fr' s htriples hlookup
  apply processDir_skip
  have he : compute_content_hash fr.raw = compute_content_hash fr'.raw :=
    hhash fr.raw fr'.raw htriples
  simp only [skipFlag, hlookup, he, Bool.true_and]
  exact beq_self_eq_true _

/-- Witness for C10: the theorem applied at rows that differ only in
`href`, `is_directory` and `None`-versus-`""` size, and at a crawler step
whose stored fingerprint came from the other row list. -/

theorem C10_fingerprint_only_triples_witness :
    compute_content_hash [c10RowA] = compute_content_hash [c10RowB]
    ∧ processDir [] true "" ⟨[c10RowB], none, none⟩
        ⟨[("", some (compute_content_hash [c10RowA]))], [], []⟩ =
      ((collectRows [] true "" [c10RowB]).subdirs,
       ⟨[("", some (compute_content_hash [c10RowA]))], [], []⟩) :=
  ⟨C10_fingerprint_only_triples.1 [c10RowA] [c10RowB] (by decide),
   C10_fingerprint_only_triples.2 [] "" ⟨[c10RowA], none, none⟩
     ⟨[c10RowB], none, none⟩ ⟨[("", some (compute_content_hash [c10RowA]))], [], []⟩
     (by decide) (by decide)⟩

theorem wf_emptyDB : wfDB emptyDB := by
  refine ⟨rfl, List.nodup_nil, ?_⟩
  intro r hr
  cases hr

theorem wf_insertOrReplaceOne {db : DBState} {e : Entry} (hw : wfDB db)
    (hf : freshInsert db e = true) : wfDB (insertOrReplaceOne db e) := by
  obtain ⟨h1, h2, h3⟩ := hw
  have hfilter : db.entries.filter (fun r => r.entry.path ≠ e.path) = db.entries :=
    List.filter_eq_self.mpr (List.all_eq_true.mp hf)
  refine ⟨?_, ?_, ?_⟩
  · simp only [insertOrReplaceOne, hfilter, List.map_append, h1, List.map_cons,
      List.map_nil]
  · simp only [insertOrReplaceOne, hfilter, List.map_append, List.map_cons,
      List.map_nil, List.nodup_append]
    refine ⟨h2, List.nodup_singleton _, ?_⟩
    intro i hi hmem
    simp only [List.mem_singleton] at hmem
    subst hmem
    obtain ⟨r, hr, hrid⟩ := List.mem_map.mp hi
    exact absurd hrid (Nat.ne_of_lt (h3 r hr))
  · intro r hr
    simp only [insertOrReplaceOne, hfilter, List.mem_append,
      List.mem_singleton] at hr
    rcases hr with hr | hr
    · exact Nat.lt_succ_of_lt (h3 r hr)
    · subst hr
      exact Nat.lt_succ_self _

theorem wf_insert_entries_batch {db : DBState} {es : List Entry} (hw : wfDB db)
    (hf : freshBatch db es = true) : wfDB (insert_entries_batch db es) := by
  induction es generalizing db with
  | nil => exact hw
  | cons e rest ih =>
    simp only [freshBatch, Bool.and_eq_true] at hf
    exact ih (wf_insertOrReplaceOne hw hf.1) hf.2

theorem wf_deleteWhere {db : DBState} {pred : Entry → Bool} (hw : wfDB db) :
    wfDB (deleteWhere pred db) := by
  obtain ⟨h1, h2, h3⟩ := hw
  refine ⟨?_, ?_, ?_⟩
  · simp only [deleteWhere, h1, List.filter_map]
    congr 1
    apply List.filter_congr
    intro r hr
    simp only [Function.comp]
    by_cases hp : pred r.entry = true
    · have hmem : r ∈ db.entries.filter (fun r => pred r.entry) :=
        List.mem_filter.mpr ⟨hr, hp⟩
      have hany : (db.entries.filter (fun r => pred r.entry)).any
          (fun d => d.id == r.id) = true :=
        List.any_eq_true.mpr ⟨r, hmem, by simp⟩
      simp [hany, hp]
    · have hpn : pred r.entry = false := by
        cases hpe : pred r.entry
        · rfl
        · exact absurd hpe hp
      have hany : (db.entries.filter (fun r => pred r.entry)).any
          (fun d => d.id == r.id) = false := by
        cases hae : (db.entries.filter (fun r => pred r.entry)).any
            (fun d => d.id == r.id)
        · rfl
        · obtain ⟨d, hd, hdid⟩ := List.any_eq_true.mp hae
          obtain ⟨hdmem, hdp⟩ := List.mem_filter.mp hd
          have : d = r :=
            List.inj_on_of_nodup_map h2 hdmem hr (by simpa using hdid)
          subst this
          exact absurd hdp hp
      simp [hany, hpn]
  · exact ((List.filter_sublist db.entries).map DBRow.id).nodup h2
  · intro r hr
    exact h3 r (List.mem_of_mem_filter hr)

theorem wf_rebuildFts {db : DBState} (h2 : (db.entries.map DBRow.id).Nodup)
    (h3 : ∀ r ∈ db.entries, r.id < db.nextId) : wfDB (rebuildFts db) :=
  ⟨rfl, h2, h3⟩

theorem wf_cleanup {db : DBState} (hw : wfDB db) :
    wfDB (cleanup_dotslash_duplicates db) := by
  have hw1 := @wf_deleteWhere db (fun e => strContainsSub "/./" e.path) hw
  have hw2 := @wf_deleteWhere _ (fun e => strStartsWith "./" e.path) hw1
  have hw3 := @wf_deleteWhere _ (fun e => e.name == ".") hw2
  exact wf_rebuildFts hw3.2.1 hw3.2.2

theorem wf_applyOps {db : DBState} {ops : List DBOp} (hw : wfDB db)
    (hf : freshOps db ops = true) : wfDB (applyOps db ops) := by
  induction ops generalizing db with
  | nil => exact hw
  | cons op rest ih =>
    simp only [freshOps, Bool.and_eq_true] at hf
    refine ih ?_ hf.2
    cases op with
    | insertBatch es => exact wf_insert_entries_batch hw hf.1
    | removeMissing p ns => exact wf_deleteWhere hw
    | cleanup => exact wf_cleanup hw

/-- C2 counterexample: upserting the same path twice leaves one primary
row but two FTS index entries.  `INSERT OR REPLACE` deletes the
conflicting row without firing the `entries_ad` trigger (SQLite fires
delete triggers for REPLACE-resolution deletes only when
`recursive_triggers` is enabled, which `Database.connect` never does), so
the old rowid's index entry is orphaned while `entries_ai` adds one for
the new rowid. -/

theorem C2_fts_desync_counterexample :
    (applyOps emptyDB
      [DBOp.insertBatch [c2Entry], DBOp.insertBatch [c2Entry]]).entries.length = 1
    ∧ (applyOps emptyDB
      [DBOp.insertBatch [c2Entry], DBOp.insertBatch [c2Entry]]).fts.length = 2 :=
  ⟨by decide, by decide⟩

/-- C2 (amended): starting from a well-formed store, any sequence of
`insert_entries_batch`, `remove_missing_entries` and cleanup operations
in which no insert replaces an already-stored path keeps the FTS index
exactly 1:1 with the primary table — every fresh insert adds exactly one
index entry, every trigger-fired delete removes exactly one, and the
count of FTS-indexed rows equals the count of primary rows.  (A
replacing upsert violates this until the next cleanup rebuild, as the
counterexample shows.) -/

theorem C2_fts_sync_amended :
    wfDB emptyDB
    ∧ (∀ (db : DBState) (ops : List DBOp),
        wfDB db → freshOps db ops = true →
        wfDB (applyOps db ops)
        ∧ (applyOps db ops).fts.length = (applyOps db ops).entries.length) := by
  refine ⟨wf_emptyDB, ?_⟩
  intro db ops hw hf
  have h := wf_applyOps hw hf
  exact ⟨h, by rw [h.1, List.length_map]⟩

/-- Witness for C2: a concrete fresh-path history (a two-entry batch, a
prune, a cleanup) keeps the counts equal. -/

theorem C2_fts_sync_amended_witness :
    wfDB (applyOps emptyDB
      [DBOp.insertBatch [c2Entry, c2Entry2],
       DBOp.removeMissing "" ["p.zip"], DBOp.cleanup])
    ∧ (applyOps emptyDB
        [DBOp.insertBatch [c2Entry, c2Entry2],
         DBOp.removeMissing "" ["p.zip"], DBOp.cleanup]).fts.length =
      (applyOps emptyDB
        [DBOp.insertBatch [c2Entry, c2Entry2],
         DBOp.removeMissing "" ["p.zip"], DBOp.cleanup]).entries.length :=
  C2_fts_sync_amended.2 emptyDB
    [DBOp.insertBatch [c2Entry, c2Entry2],
     DBOp.removeMissing "" ["p.zip"], DBOp.cleanup]
    wf_emptyDB (by decide)

theorem multiFilterConds_all (field : Entry → Option String) (v : String)
    (e : Entry) :
    (multiFilterConds field v).all (fun c => c e) =
      (match splitCommaVals v with
       | [] => true
       | xs => xs.any (fun x => field e == some x)) := by
  cases hs : splitCommaVals v with
  | nil => simp [multiFilterConds, hs]
  | cons x rest =>
    cases rest with
    | nil => simp [multiFilterConds, hs]
    | cons y r2 => simp [multiFilterConds, hs]

/-- C5 counterexample: the `file_type` filter does *not* accept a
comma-separated set — `Database.search` compares the whole string
verbatim (`e.file_type = :file_type`), so a row with `file_type = "zip"`
does not match the filter `"zip,7z"`, although the claimed OR semantics
says it must. -/

theorem C5_file_type_not_multi_counterexample :
    rowMatchesFilters none none (some "zip,7z") none true c5Row = false
    ∧ claimMatchesFilters none none (some "zip,7z") none true c5Row = true
    ∧ c5Row.file_type = some "zip" :=
  ⟨by decide, by decide, rfl⟩

/-- C5 (amended): the filters combine by AND across fields, and
`collection`, `platform` and `region` each accept a single value or a
comma-separated set with OR semantics within the field — but `file_type`
accepts only a single value, compared verbatim. -/

theorem C5_filter_semantics_amended :
    ∀ (c p f r : Option String) (fo : Bool) (e : Entry),
      rowMatchesFilters c p f r fo e =
        ((if fo then e.is_directory == false else true)
         && fieldMultiMatches Entry.collection c e
         && fieldMultiMatches Entry.platform p e
         && (match optTruthy f with
             | none => true
             | some v => e.file_type == some v)
         && fieldMultiMatches Entry.region r e) := by
  intro c p f r fo e
  rcases hoc : optTruthy c with _ | v1 <;> rcases hop : optTruthy p with _ | v2 <;>
    rcases hof : optTruthy f with _ | v3 <;> rcases hor : optTruthy r with _ | v4 <;>
      cases fo <;>
        simp [rowMatchesFilters, searchConds, fieldMultiMatches, hoc, hop, hof,
          hor, List.all_append, multiFilterConds_all, Bool.and_assoc]

/-! ### Claim C9: degenerate queries -/

/-- C9: a query whose sanitization leaves no terms — empty,
whitespace-only, or consisting entirely of the stripped operator keywords
and stripped punctuation — makes `search` return the well-formed empty
result set `{total 0, pages 0, results []}` instead of raising. -/

theorem C9_empty_query_returns_empty :
    ftsTerms "" = []
    ∧ ftsTerms "   " = []
    ∧ ftsTerms "AND OR NOT NEAR (+&!)" = []
    ∧ (∀ (fm : String → Entry → Bool) (ob : List Entry → List Entry)
        (rows : List Entry) (q : String) (c p f r : Option String)
        (fo : Bool) (page pp : Nat),
        ftsTerms q = [] →
        dbSearch fm ob rows q c p f r fo page pp =
          ⟨0, page, pp, 0, []⟩) := by
  refine ⟨by decide, by decide, by decide, ?_⟩
  intro fm ob rows q c p f r fo page pp h
  simp only [dbSearch, h, List.isEmpty_nil, if_true, ite_true]

/-- Witness for C9: the universal part applied to a concrete
operator-and-punctuation-only query. -/

theorem C9_empty_query_returns_empty_witness :
    dbSearch (fun _ _ => true) id [c5Row] "NOT (OR) AND!!" none none none none
      true 1 50 = ⟨0, 1, 50, 0, []⟩ :=
  C9_empty_query_returns_empty.2.2.2 (fun _ _ => true) id [c5Row]
    "NOT (OR) AND!!" none none none none true 1 50 (by decide)
